import Mathlib

/-!
Verification of a minimal TensorFlow-like computation-graph engine.

The embedded program builds a graph of nodes (constants, variables,
placeholders, operations), registers each node into a default graph,
topologically sorts the dependency sub-graph of an evaluation target, and
runs a single forward pass over the sorted nodes.

Python object identity is modelled by node indices (the position of a node
in the store, which is also construction order).  Mutable object state
(variable values, cached outputs) lives in an explicit state record that
every stateful function threads through.  Python exceptions are modelled by
an error type whose variants name the abstract errors of the design:
KeyError on a feed lookup becomes missingFeed, the ValueError raised by the
constant value setter becomes immutableValue, TypeError becomes typeErr,
AttributeError becomes attrErr, NotImplementedError becomes notImplemented,
and RecursionError (infinite recursion of the naive sort) becomes
recursionErr.  Python numbers are modelled by integers, and the Python
value None by an explicit none variant.
-/

/-- A runtime value: the Python value None or an integer payload. -/
inductive Value where
  | none
  | int (n : Int)
deriving DecidableEq

/-- Errors modelling the Python exceptions the embedded code can raise. -/
inductive TFError where
  | missingFeed (p : Nat)
  | immutableValue
  | typeErr
  | attrErr
  | notImplemented
  | recursionErr
deriving DecidableEq

/-- The kind of a concrete operation: the abstract base class, or one of the
elementwise arithmetic kernels used by the claims. -/
inductive Kernel where
  | base
  | add
  | multiply
deriving DecidableEq

/-- Elementwise sum, mirroring the Python expression a + b: defined on two
integers, and a TypeError when an operand is None. -/
def valueAdd : Value → Value → Except TFError Value
  | Value.int a, Value.int b => Except.ok (Value.int (a + b))
  | _, _ => Except.error TFError.typeErr

/-- Elementwise product, mirroring the Python expression a * b. -/
def valueMul : Value → Value → Except TFError Value
  | Value.int a, Value.int b => Except.ok (Value.int (a * b))
  | _, _ => Except.error TFError.typeErr

/-- Dispatch of the forward method.  The abstract base forward has an empty
parameter list and a body that is just the Python statement pass, so calling
it with no arguments returns None and calling it with arguments is an arity
TypeError.  The concrete binary kernels take exactly two arguments. -/
def Kernel.forward : Kernel → List Value → Except TFError Value
  | Kernel.base, [] => Except.ok Value.none
  | Kernel.base, _ => Except.error TFError.typeErr
  | Kernel.add, [a, b] => valueAdd a b
  | Kernel.add, _ => Except.error TFError.typeErr
  | Kernel.multiply, [a, b] => valueMul a b
  | Kernel.multiply, _ => Except.error TFError.typeErr

/-- Dispatch of the backward method: the abstract base body is pass, every
concrete kernel raises NotImplementedError. -/
def Kernel.backward : Kernel → Value → Except TFError Value
  | Kernel.base, _ => Except.ok Value.none
  | _, _ => Except.error TFError.notImplemented

/-- The construction-time data of a node: its variant, together with the
value stored on the node (for constants and variables) or the kernel and
ordered input-node list (for operations). -/
inductive NodeData where
  | Constant (value : Value)
  | Variable (value : Value)
  | Placeholder
  | Operation (k : Kernel) (input_nodes : List Nat)
deriving DecidableEq

/-- A node in the store: its data together with its mutable cached output.
An Operation initializes the output attribute to None; the other variants
have no output attribute until the evaluator assigns one, modelled by
Option.none. -/
structure Node where
  data : NodeData
  output : Option Value
deriving DecidableEq

/-- The four bookkeeping collections of the default graph, each a list of
node indices in construction order.  The vars field embeds the collection
the source calls variables (a reserved word here). -/
structure Graph where
  operations : List Nat
  placeholders : List Nat
  constants : List Nat
  vars : List Nat
deriving DecidableEq

/-- The whole mutable world: the node store (index = identity = construction
order) and the default graph's bookkeeping collections. -/
structure TFState where
  nodes : List Node
  graph : Graph
deriving DecidableEq

/-- A fresh default graph with no nodes, as produced by constructing a Graph
and calling as_default. -/
def newGraph : TFState :=
  ⟨[], ⟨[], [], [], []⟩⟩

/-- The sequence of node variants in the store: everything the sort and the
evaluator's dispatch read, and exactly what stays fixed while outputs
mutate. -/
def dataMap (g : List Node) : List NodeData :=
  g.map Node.data

/-- The variant data of node n. -/
def dataOf (d : List NodeData) (n : Nat) : Option NodeData :=
  d.get? n

/-- The cached output of node n, when the attribute has been assigned. -/
def outputOf (g : List Node) (n : Nat) : Option Value :=
  match g.get? n with
  | some node => node.output
  | Option.none => Option.none

/-- Operation.__init__: store the input list, set output to None, append the
new node to the operations collection of the default graph.  Returns the new
node's identity. -/
def Operation.init (s : TFState) (k : Kernel) (input_nodes : List Nat) : Nat × TFState :=
  (s.nodes.length,
   ⟨s.nodes ++ [⟨NodeData.Operation k input_nodes, some Value.none⟩],
    ⟨s.graph.operations ++ [s.nodes.length], s.graph.placeholders,
     s.graph.constants, s.graph.vars⟩⟩)

/-- add(a, b): a BinaryOperation with the add kernel. -/
def add.init (s : TFState) (a b : Nat) : Nat × TFState :=
  Operation.init s Kernel.add [a, b]

/-- multiply(a, b): a BinaryOperation with the multiply kernel. -/
def multiply.init (s : TFState) (a b : Nat) : Nat × TFState :=
  Operation.init s Kernel.multiply [a, b]

/-- Placeholder.__init__: no value, append to the placeholders collection. -/
def Placeholder.init (s : TFState) : Nat × TFState :=
  (s.nodes.length,
   ⟨s.nodes ++ [⟨NodeData.Placeholder, Option.none⟩],
    ⟨s.graph.operations, s.graph.placeholders ++ [s.nodes.length],
     s.graph.constants, s.graph.vars⟩⟩)

/-- Constant.__init__: store the value, append to the constants
collection. -/
def Constant.init (s : TFState) (v : Value) : Nat × TFState :=
  (s.nodes.length,
   ⟨s.nodes ++ [⟨NodeData.Constant v, Option.none⟩],
    ⟨s.graph.operations, s.graph.placeholders,
     s.graph.constants ++ [s.nodes.length], s.graph.vars⟩⟩)

/-- Variable.__init__: store the initial value, append to the variables
collection. -/
def Variable.init (s : TFState) (v : Value) : Nat × TFState :=
  (s.nodes.length,
   ⟨s.nodes ++ [⟨NodeData.Variable v, Option.none⟩],
    ⟨s.graph.operations, s.graph.placeholders,
     s.graph.constants, s.graph.vars ++ [s.nodes.length]⟩⟩)

/-- Reading the value property of a Constant. -/
def Constant.getValue (s : TFState) (c : Nat) : Option Value :=
  match dataOf (dataMap s.nodes) c with
  | some (NodeData.Constant v) => some v
  | _ => Option.none

/-- Assigning to the value property of a Constant: the property setter
unconditionally raises (Cannot reassign value), so no state is changed. -/
def Constant.setValue (s : TFState) (_c : Nat) (_w : Value) : Except TFError Unit × TFState :=
  (Except.error TFError.immutableValue, s)

/-- Plain attribute assignment to a Variable's value, as external code
performs between runs. -/
def Variable.setValue (s : TFState) (n : Nat) (v : Value) : TFState :=
  match s.nodes.get? n with
  | some node =>
    match node.data with
    | NodeData.Variable _ => ⟨s.nodes.set n ⟨NodeData.Variable v, node.output⟩, s.graph⟩
    | _ => s
  | Option.none => s

/-- The DFS state of topology_sort: the visited set and the ordering list
(the visited set only ever answers membership queries, so a list models
it). -/
abbrev St := List Nat × List Nat

/-- The for-loop of recursive_helper over the input nodes: recurse (via the
supplied function) into every input node not yet visited. -/
def visitList (f : Nat → St → Option St) : List Nat → St → Option St
  | [], st => some st
  | i :: rest, st =>
    if i ∈ st.1 then visitList f rest st
    else
      match f i st with
      | some st2 => visitList f rest st2
      | Option.none => Option.none

/-- One level of recursive_helper: if the node is an Operation, first walk
its input nodes; then add the node to the visited set and append it to the
ordering. -/
def helperStep (d : List NodeData) (prev : Nat → St → Option St) (n : Nat) (st : St) : Option St :=
  match dataOf d n with
  | some (NodeData.Operation _ input_nodes) =>
    match visitList prev input_nodes st with
    | some st2 => some (n :: st2.1, st2.2 ++ [n])
    | Option.none => Option.none
  | _ => some (n :: st.1, st.2 ++ [n])

/-- recursive_helper, made total by structural recursion on a fuel that
bounds the recursion depth; exhausted fuel (the value Option.none) models
the infinite recursion of the Python function on a cyclic graph. -/
def recursive_helper (d : List NodeData) (fuel : Nat) : Nat → St → Option St :=
  Nat.rec (motive := fun _ => Nat → St → Option St)
    (fun _ _ => Option.none)
    (fun _ prev => helperStep d prev)
    fuel

/-- topology_sort: depth-first post-order walk from the root operation,
returning the ordering. -/
def topology_sort (d : List NodeData) (fuel : Nat) (operation : Nat) : Option (List Nat) :=
  Option.map Prod.snd (recursive_helper d fuel operation ([], []))

/-- Feed dictionary lookup by node identity; Option.none models the KeyError
raised by a missing key. -/
def lookupFeed : List (Nat × Value) → Nat → Option Value
  | [], _ => Option.none
  | (k, v) :: rest, n => if k = n then some v else lookupFeed rest n

/-- The list comprehension reading the cached outputs of the input nodes;
Option.none models the AttributeError on a node whose output attribute was
never assigned. -/
def gatherOutputs (g : List Node) : List Nat → Option (List Value)
  | [] => some []
  | i :: rest =>
    match outputOf g i, gatherOutputs g rest with
    | some v, some vs => some (v :: vs)
    | _, _ => Option.none

/-- Assignment to the output attribute of node n. -/
def setOutput (s : TFState) (n : Nat) (v : Value) : TFState :=
  match s.nodes.get? n with
  | some node => ⟨s.nodes.set n ⟨node.data, some v⟩, s.graph⟩
  | Option.none => s

/-- One iteration of the evaluation loop of Session.run, resolving the
output of one node: a Placeholder reads the feed dictionary, a Variable or
Constant reads its currently stored value, and an Operation applies its
forward function to the cached outputs of its input nodes. -/
def runStep (feed_dict : List (Nat × Value)) (s : TFState) (n : Nat) : TFState × Option TFError :=
  match dataOf (dataMap s.nodes) n with
  | some NodeData.Placeholder =>
    match lookupFeed feed_dict n with
    | some v => (setOutput s n v, Option.none)
    | Option.none => (s, some (TFError.missingFeed n))
  | some (NodeData.Variable v) => (setOutput s n v, Option.none)
  | some (NodeData.Constant v) => (setOutput s n v, Option.none)
  | some (NodeData.Operation k input_nodes) =>
    match gatherOutputs s.nodes input_nodes with
    | some vals =>
      match Kernel.forward k vals with
      | Except.ok v => (setOutput s n v, Option.none)
      | Except.error e => (s, some e)
    | Option.none => (s, some TFError.attrErr)
  | Option.none => (s, some TFError.attrErr)

/-- The evaluation loop of Session.run over the sorted nodes; an exception
aborts the loop, leaving the outputs assigned so far in place. -/
def runLoop (feed_dict : List (Nat × Value)) : List Nat → TFState → TFState × Option TFError
  | [], s => (s, Option.none)
  | n :: rest, s =>
    match runStep feed_dict s n with
    | (s2, Option.none) => runLoop feed_dict rest s2
    | (s2, some e) => (s2, some e)

/-- Session.run: topologically sort the dependency sub-graph of the target,
resolve every node's output in that order, return the target's output.  The
store's size bounds the recursion depth of the sort on every graph the
constructors can build. -/
def Session.run (s : TFState) (operation : Nat) (feed_dict : List (Nat × Value)) :
    Except TFError Value × TFState :=
  match topology_sort (dataMap s.nodes) s.nodes.length operation with
  | Option.none => (Except.error TFError.recursionErr, s)
  | some nodes_sorted =>
    match runLoop feed_dict nodes_sorted s with
    | (s2, some e) => (Except.error e, s2)
    | (s2, Option.none) =>
      match outputOf s2.nodes operation with
      | some v => (Except.ok v, s2)
      | Option.none => (Except.error TFError.attrErr, s2)

/-- The scenario state: a = Constant(3) is node 0, b = Variable(4) is node
1, op = multiply(a, b) is node 2. -/
def exS : TFState :=
  (multiply.init (Variable.init (Constant.init newGraph (Value.int 3)).2 (Value.int 4)).2 0 1).2

/-- The scenario state after the first run, with b's value reassigned
to 10. -/
def exS2 : TFState :=
  Variable.setValue (Session.run exS 2 []).2 1 (Value.int 10)

/-- A graph whose evaluation raises a TypeError before reaching an unfed
placeholder: nodes 0 and 1 are Constant(None), node 2 adds them (TypeError),
node 3 is a Placeholder, node 4 adds nodes 2 and 3. -/
def cexS : TFState :=
  (add.init
    (Placeholder.init
      (add.init
        (Constant.init (Constant.init newGraph Value.none).2 Value.none).2
        0 1).2).2
    2 3).2

/-- A store with a single operation node whose input list names the node
itself: the cyclic graph on which the naive recursive sort diverges. -/
def selfLoop : List NodeData :=
  [NodeData.Operation Kernel.add [0]]

/-- The unfed-placeholder scenario: node 0 is a Placeholder, node 1 is
Constant(2), node 2 = add(0, 1). -/
def pS : TFState :=
  (add.init (Constant.init (Placeholder.init newGraph).2 (Value.int 2)).2 0 1).2

/-- The invariant every constructor-built store satisfies: each operation's
input nodes were constructed before the operation, so their indices are
strictly smaller.  This is the form acyclicity takes here: it makes every
reachable dependency sub-graph a finite DAG. -/
def WellFormedB (d : List NodeData) : Bool :=
  (List.range d.length).all fun i =>
    match dataOf d i with
    | some (NodeData.Operation _ l) => l.all fun j => decide (j < i)
    | _ => true

/-- Propositional form of the store invariant. -/
def WellFormed (d : List NodeData) : Prop :=
  WellFormedB d = true

/-- Node i is a declared input of operation m. -/
def inputDep (d : List NodeData) (m i : Nat) : Prop :=
  ∃ k l, dataOf d m = some (NodeData.Operation k l) ∧ i ∈ l

/-- The ordering guarantee of the topological sort: wherever an operation
occurs in the sequence, each of its inputs occurs at a strictly earlier
position. -/
def SortedOrd (d : List NodeData) (ord : List Nat) : Prop :=
  ∀ pre x post, ord = pre ++ x :: post → ∀ i, inputDep d x i → i ∈ pre

/-- Reachability along dependency edges from an evaluation target. -/
inductive Reaches (d : List NodeData) : Nat → Nat → Prop where
  | refl (n : Nat) : Reaches d n n
  | tail {a b c : Nat} : Reaches d a b → inputDep d b c → Reaches d a c

/-- The invariant of the DFS state: visited and ordering hold the same
nodes, the ordering already satisfies the sortedness guarantee, and the
visited set is closed under dependency edges. -/
def StInv (d : List NodeData) (st : St) : Prop :=
  (∀ x, x ∈ st.1 ↔ x ∈ st.2) ∧ SortedOrd d st.2 ∧
  (∀ x ∈ st.1, ∀ i, inputDep d x i → i ∈ st.1)

/-- Node n holds an Operation. -/
def isOpAt (d : List NodeData) (n : Nat) : Bool :=
  match dataOf d n with
  | some (NodeData.Operation _ _) => true
  | _ => false

/-- Node n holds a Placeholder. -/
def isPhAt (d : List NodeData) (n : Nat) : Bool :=
  match dataOf d n with
  | some NodeData.Placeholder => true
  | _ => false

/-- Node n holds a Constant. -/
def isConstAt (d : List NodeData) (n : Nat) : Bool :=
  match dataOf d n with
  | some (NodeData.Constant _) => true
  | _ => false

/-- Node n holds a Variable. -/
def isVarAt (d : List NodeData) (n : Nat) : Bool :=
  match dataOf d n with
  | some (NodeData.Variable _) => true
  | _ => false

/-- Strictly increasing list of indices: the order the indices were
handed out, that is, construction order. -/
def increasing : List Nat → Bool
  | [] => true
  | [_] => true
  | a :: b :: t => decide (a < b) && increasing (b :: t)

/-- The bookkeeping invariant of the default graph: every collection holds
exactly indices of its own variant, in construction order. -/
def GraphInvB (s : TFState) : Bool :=
  s.graph.operations.all (isOpAt (dataMap s.nodes)) &&
  s.graph.placeholders.all (isPhAt (dataMap s.nodes)) &&
  s.graph.constants.all (isConstAt (dataMap s.nodes)) &&
  s.graph.vars.all (isVarAt (dataMap s.nodes)) &&
  increasing s.graph.operations && increasing s.graph.placeholders &&
  increasing s.graph.constants && increasing s.graph.vars

/-- Propositional form of the bookkeeping invariant. -/
def GraphInv (s : TFState) : Prop :=
  GraphInvB s = true

/-- The four collections are pairwise disjoint. -/
def GraphDisjoint (s : TFState) : Prop :=
  ∀ n : Nat,
    (n ∈ s.graph.operations →
      n ∉ s.graph.placeholders ∧ n ∉ s.graph.constants ∧ n ∉ s.graph.vars) ∧
    (n ∈ s.graph.placeholders → n ∉ s.graph.constants ∧ n ∉ s.graph.vars) ∧
    (n ∈ s.graph.constants → n ∉ s.graph.vars)

/-- Construction result r extends s by appending the new index to the
constants collection only, and the new node holds a Constant. -/
def registersConstant (s : TFState) (r : Nat × TFState) : Prop :=
  isConstAt (dataMap r.2.nodes) r.1 = true ∧
  r.2.graph.constants = s.graph.constants ++ [r.1] ∧
  r.2.graph.operations = s.graph.operations ∧
  r.2.graph.placeholders = s.graph.placeholders ∧
  r.2.graph.vars = s.graph.vars

/-- Construction result r extends s by appending the new index to the
variables collection only, and the new node holds a Variable. -/
def registersVariable (s : TFState) (r : Nat × TFState) : Prop :=
  isVarAt (dataMap r.2.nodes) r.1 = true ∧
  r.2.graph.vars = s.graph.vars ++ [r.1] ∧
  r.2.graph.operations = s.graph.operations ∧
  r.2.graph.placeholders = s.graph.placeholders ∧
  r.2.graph.constants = s.graph.constants

/-- Construction result r extends s by appending the new index to the
placeholders collection only, and the new node holds a Placeholder. -/
def registersPlaceholder (s : TFState) (r : Nat × TFState) : Prop :=
  isPhAt (dataMap r.2.nodes) r.1 = true ∧
  r.2.graph.placeholders = s.graph.placeholders ++ [r.1] ∧
  r.2.graph.operations = s.graph.operations ∧
  r.2.graph.constants = s.graph.constants ∧
  r.2.graph.vars = s.graph.vars

/-- Construction result r extends s by appending the new index to the
operations collection only, and the new node holds an Operation. -/
def registersOperation (s : TFState) (r : Nat × TFState) : Prop :=
  isOpAt (dataMap r.2.nodes) r.1 = true ∧
  r.2.graph.operations = s.graph.operations ++ [r.1] ∧
  r.2.graph.placeholders = s.graph.placeholders ∧
  r.2.graph.constants = s.graph.constants ∧
  r.2.graph.vars = s.graph.vars

/-- Claim C1: with a = Constant(3), b = Variable(4), op = multiply(a, b),
running the session returns 12; after b's value is reassigned to 10, a
second run returns 30 — the evaluator reads the variable's current stored
value at evaluation time, not a snapshot cached by the earlier run. -/
theorem run_reads_current_variable_value :
    (Session.run exS 2 []).1 = Except.ok (Value.int 12) ∧
    (Session.run exS2 2 []).1 = Except.ok (Value.int 30) :=
  ⟨rfl, rfl⟩

/-- Setting an index and reading it back. -/
theorem list_get?_set_self {α : Type} (l : List α) :
    ∀ (n : Nat) (a : α), n < l.length → (l.set n a).get? n = some a := by
  induction l with
  | nil => intro n a h; simp at h
  | cons b t ih =>
    intro n a h
    cases n with
    | zero => rfl
    | succ m => simpa using ih m a (by simpa using h)

/-- Setting one index leaves the others unread. -/
theorem list_get?_set_ne {α : Type} (l : List α) :
    ∀ (n m : Nat) (a : α), n ≠ m → (l.set n a).get? m = l.get? m := by
  induction l with
  | nil => intro n m a _; simp
  | cons b t ih =>
    intro n m a h
    cases n with
    | zero =>
      cases m with
      | zero => exact absurd rfl h
      | succ m2 => rfl
    | succ n2 =>
      cases m with
      | zero => rfl
      | succ m2 => simpa using ih n2 m2 a (by omega)

/-- A successful index read is in range. -/
theorem list_get?_some_lt {α : Type} (l : List α) :
    ∀ (n : Nat) (a : α), l.get? n = some a → n < l.length := by
  induction l with
  | nil => intro n a h; simp at h
  | cons b t ih =>
    intro n a h
    cases n with
    | zero => simp
    | succ m =>
      have := ih m a (by simpa using h)
      simpa using Nat.succ_lt_succ this

/-- An in-range index reads successfully. -/
theorem list_lt_get?_some {α : Type} (l : List α) :
    ∀ (n : Nat), n < l.length → ∃ a, l.get? n = some a := by
  induction l with
  | nil => intro n h; simp at h
  | cons b t ih =>
    intro n h
    cases n with
    | zero => exact ⟨b, rfl⟩
    | succ m => simpa using ih m (by simpa using h)

/-- Mapping commutes with setting an index. -/
theorem list_map_set {α β : Type} (f : α → β) (l : List α) :
    ∀ (n : Nat) (a : α), (l.set n a).map f = (l.map f).set n (f a) := by
  induction l with
  | nil => intro n a; simp
  | cons b t ih =>
    intro n a
    cases n with
    | zero => simp
    | succ m => simp [ih m a]

/-- Setting an index to the value it already holds changes nothing. -/
theorem list_set_get?_self {α : Type} (l : List α) :
    ∀ (n : Nat) (a : α), l.get? n = some a → l.set n a = l := by
  induction l with
  | nil => intro n a h; simp at h
  | cons b t ih =>
    intro n a h
    cases n with
    | zero => simpa using (by simpa using h : b = a).symm
    | succ m => simpa using ih m a (by simpa using h)

/-- Reading below the split point of an append. -/
theorem list_get?_append_lt {α : Type} (l l2 : List α) :
    ∀ (n : Nat), n < l.length → (l ++ l2).get? n = l.get? n := by
  induction l with
  | nil => intro n h; simp at h
  | cons b t ih =>
    intro n h
    cases n with
    | zero => rfl
    | succ m => simpa using ih m (by simpa using h)

/-- Reading the appended element at the old length. -/
theorem list_get?_concat_self {α : Type} (l : List α) (a : α) :
    (l ++ [a]).get? l.length = some a := by
  induction l with
  | nil => rfl
  | cons b t ih => simp [ih]

/-- The last element of a sequence ending in a. -/
theorem list_getLast?_concat {α : Type} (l : List α) (a : α) :
    (l ++ [a]).getLast? = some a := by
  induction l with
  | nil => rfl
  | cons b t ih =>
    cases t with
    | nil => simp
    | cons c t2 => simpa using ih

/-- Decomposing an occurrence inside a sequence ending in a: either the
occurrence is inside the front part, or it is the appended element. -/
theorem list_concat_decomp {α : Type} :
    ∀ (l pre post : List α) (x a : α), l ++ [a] = pre ++ x :: post →
      (∃ post2, l = pre ++ x :: post2 ∧ post = post2 ++ [a]) ∨
      (pre = l ∧ x = a ∧ post = []) := by
  intro l
  induction l with
  | nil =>
    intro pre post x a h
    cases pre with
    | nil =>
      simp at h
      exact Or.inr ⟨rfl, h.1.symm, h.2⟩
    | cons c pre2 =>
      simp at h
  | cons b t ih =>
    intro pre post x a h
    cases pre with
    | nil =>
      simp at h
      obtain ⟨hb, ht⟩ := h
      exact Or.inl ⟨t, by simp [hb], ht.symm⟩
    | cons c pre2 =>
      simp at h
      obtain ⟨hb, ht⟩ := h
      rcases ih pre2 post x a ht with ⟨post2, h1, h2⟩ | ⟨h1, h2, h3⟩
      · exact Or.inl ⟨post2, by simp [hb, h1], h2⟩
      · exact Or.inr ⟨by simp [hb, h1], h2, h3⟩

/-- Reading through a map. -/
theorem list_get?_map {α β : Type} (f : α → β) (l : List α) :
    ∀ (n : Nat), (l.map f).get? n = (l.get? n).map f := by
  induction l with
  | nil => intro n; simp
  | cons b t ih =>
    intro n
    cases n with
    | zero => rfl
    | succ m => simp [ih m]

/-- The store of variants keeps the store's length. -/
theorem dataMap_length (g : List Node) : (dataMap g).length = g.length := by
  simp [dataMap]

/-- Variant data read through the store of variants. -/
theorem dataOf_dataMap (g : List Node) (n : Nat) :
    dataOf (dataMap g) n = (g.get? n).map Node.data :=
  list_get?_map Node.data g n

/-- A successful variant read is in range. -/
theorem dataOf_lt (d : List NodeData) (n : Nat) (a : NodeData)
    (h : dataOf d n = some a) : n < d.length :=
  list_get?_some_lt d n a h

/-- Assigning an output never touches the bookkeeping collections. -/
theorem setOutput_graph (s : TFState) (n : Nat) (v : Value) :
    (setOutput s n v).graph = s.graph := by
  unfold setOutput
  cases s.nodes.get? n <;> rfl

/-- Assigning an output never touches any node's variant data. -/
theorem setOutput_dataMap (s : TFState) (n : Nat) (v : Value) :
    dataMap (setOutput s n v).nodes = dataMap s.nodes := by
  unfold setOutput
  cases h : s.nodes.get? n with
  | none => rfl
  | some node =>
    show dataMap (s.nodes.set n ⟨node.data, some v⟩) = dataMap s.nodes
    unfold dataMap
    rw [list_map_set]
    refine list_set_get?_self _ n node.data ?_
    rw [list_get?_map, h]
    rfl

/-- Assigning an output keeps the store's length. -/
theorem setOutput_length (s : TFState) (n : Nat) (v : Value) :
    (setOutput s n v).nodes.length = s.nodes.length := by
  unfold setOutput
  cases s.nodes.get? n <;> simp

/-- Reading back an assigned output. -/
theorem outputOf_setOutput_self (s : TFState) (n : Nat) (v : Value)
    (h : n < s.nodes.length) : outputOf (setOutput s n v).nodes n = some v := by
  obtain ⟨node, hnode⟩ := list_lt_get?_some s.nodes n h
  unfold setOutput outputOf
  rw [hnode]
  rw [list_get?_set_self s.nodes n _ h]

/-- An output assignment leaves the other outputs unread. -/
theorem outputOf_setOutput_other (s : TFState) (n m : Nat) (v : Value)
    (h : n ≠ m) : outputOf (setOutput s n v).nodes m = outputOf s.nodes m := by
  unfold setOutput outputOf
  cases hnode : s.nodes.get? n with
  | none => rfl
  | some node => rw [list_get?_set_ne s.nodes n m _ h]

/-- One evaluation step never touches variant data or the collections. -/
theorem runStep_pres (feed : List (Nat × Value)) (s : TFState) (n : Nat) :
    dataMap (runStep feed s n).1.nodes = dataMap s.nodes ∧
    (runStep feed s n).1.graph = s.graph := by
  cases hd : dataOf (dataMap s.nodes) n with
  | none => simp [runStep, hd]
  | some nd =>
    cases nd with
    | Placeholder =>
      cases hl : lookupFeed feed n with
      | none => simp [runStep, hd, hl]
      | some v =>
        simp only [runStep, hd, hl]
        exact ⟨setOutput_dataMap s n v, setOutput_graph s n v⟩
    | Variable v =>
      simp only [runStep, hd]
      exact ⟨setOutput_dataMap s n v, setOutput_graph s n v⟩
    | Constant v =>
      simp only [runStep, hd]
      exact ⟨setOutput_dataMap s n v, setOutput_graph s n v⟩
    | Operation k l =>
      cases hgo : gatherOutputs s.nodes l with
      | none => simp [runStep, hd, hgo]
      | some vals =>
        cases hf : Kernel.forward k vals with
        | ok v =>
          simp only [runStep, hd, hgo, hf]
          exact ⟨setOutput_dataMap s n v, setOutput_graph s n v⟩
        | error e => simp [runStep, hd, hgo, hf]

/-- The evaluation loop never touches variant data or the collections. -/
theorem runLoop_pres (feed : List (Nat × Value)) :
    ∀ (l : List Nat) (s : TFState),
      dataMap (runLoop feed l s).1.nodes = dataMap s.nodes ∧
      (runLoop feed l s).1.graph = s.graph := by
  intro l
  induction l with
  | nil => intro s; exact ⟨rfl, rfl⟩
  | cons n rest ih =>
    intro s
    have hstep := runStep_pres feed s n
    unfold runLoop
    cases hrs : runStep feed s n with
    | mk s2 e =>
      rw [hrs] at hstep
      cases e with
      | none =>
        have := ih s2
        exact ⟨by rw [this.1, hstep.1], by rw [this.2, hstep.2]⟩
      | some e2 => exact hstep

/-- Claim C3: assigning to a constructed Constant's value fails with
ImmutableValueError (the setter's unconditional ValueError), and reading the
value afterwards still returns the construction-time value: the failed
assignment changes nothing. -/
theorem constant_immutable (s : TFState) (c : Nat) (v w : Value)
    (h : dataOf (dataMap s.nodes) c = some (NodeData.Constant v)) :
    (Constant.setValue s c w).1 = Except.error TFError.immutableValue ∧
    (Constant.setValue s c w).2 = s ∧
    Constant.getValue (Constant.setValue s c w).2 c = some v := by
  refine ⟨rfl, rfl, ?_⟩
  simp [Constant.setValue, Constant.getValue, h]

/-- Witness for claim C3 at the concrete constant node 0 of the scenario
state, which stores 3. -/
theorem constant_immutable_witness :
    (Constant.setValue exS 0 (Value.int 9)).1 = Except.error TFError.immutableValue ∧
    (Constant.setValue exS 0 (Value.int 9)).2 = exS ∧
    Constant.getValue (Constant.setValue exS 0 (Value.int 9)).2 0 = some (Value.int 3) :=
  constant_immutable exS 0 (Value.int 3) (Value.int 9) rfl

/-- Claim C5 counterexample: invoking the abstract base Operation's forward
(with its empty parameter list) does not fail with NotImplementedOperation;
it succeeds and returns the value None, because its body is the Python
statement pass. -/
theorem base_forward_claim_cex :
    Kernel.forward Kernel.base [] = Except.ok Value.none :=
  rfl

/-- Claim C5 amended: the abstract base forward never raises
NotImplementedOperation: invoked without arguments it returns None (its body
is pass), and invoked with arguments, as the evaluator does for an operation
that has inputs, it fails with an arity TypeError; only backward on the
concrete operations raises NotImplementedError. -/
theorem base_forward_amended :
    Kernel.forward Kernel.base [] = Except.ok Value.none ∧
    (∀ (v : Value) (vs : List Value),
      Kernel.forward Kernel.base (v :: vs) = Except.error TFError.typeErr) ∧
    (∀ u : Value,
      Kernel.backward Kernel.add u = Except.error TFError.notImplemented ∧
      Kernel.backward Kernel.multiply u = Except.error TFError.notImplemented) :=
  ⟨rfl, fun _ _ => rfl, fun _ => ⟨rfl, rfl⟩⟩

/-- Claim C8: Session.run never modifies the graph structure: whether the
run completes or fails, the four bookkeeping collections and every node's
variant data (in particular every operation's input list) are exactly as
before the call; only cached outputs mutate. -/
theorem run_preserves_graph (s : TFState) (target : Nat) (feed : List (Nat × Value)) :
    (Session.run s target feed).2.graph = s.graph ∧
    dataMap (Session.run s target feed).2.nodes = dataMap s.nodes := by
  cases htopo : topology_sort (dataMap s.nodes) s.nodes.length target with
  | none => simp [Session.run, htopo]
  | some ord =>
    have hp := runLoop_pres feed ord s
    cases hrl : runLoop feed ord s with
    | mk s2 e =>
      rw [hrl] at hp
      cases e with
      | none =>
        cases houtput : outputOf s2.nodes target with
        | none =>
          simp only [Session.run, htopo, hrl, houtput]
          exact ⟨hp.2, hp.1⟩
        | some v =>
          simp only [Session.run, htopo, hrl, houtput]
          exact ⟨hp.2, hp.1⟩
      | some e2 =>
        simp only [Session.run, htopo, hrl]
        exact ⟨hp.2, hp.1⟩

/-- Claim C4 counterexample: in the graph with nodes 0 and 1 holding
Constant(None), node 2 = add(0, 1), node 3 a Placeholder and node
4 = add(2, 3), the placeholder 3 is reachable from the target 4 and absent
from the empty feed, yet the run fails with a TypeError raised by the add
kernel at node 2, which precedes the placeholder in the topological order —
not with a MissingFeedError. -/
theorem missing_feed_claim_cex :
    dataOf (dataMap cexS.nodes) 3 = some NodeData.Placeholder ∧
    Reaches (dataMap cexS.nodes) 4 3 ∧
    lookupFeed [] 3 = Option.none ∧
    (Session.run cexS 4 []).1 = Except.error TFError.typeErr :=
  ⟨rfl, Reaches.tail (Reaches.refl 4) ⟨Kernel.add, [2, 3], rfl, by simp⟩,
   rfl, rfl⟩

/-- Out of fuel, the recursive helper reports divergence. -/
theorem recursive_helper_zero (d : List NodeData) (n : Nat) (st : St) :
    recursive_helper d 0 n st = Option.none :=
  rfl

/-- Unfolding one recursion level of the helper. -/
theorem recursive_helper_succ (d : List NodeData) (f : Nat) :
    recursive_helper d (f + 1) = helperStep d (recursive_helper d f) :=
  rfl

/-- In a well-formed store, an operation's inputs have smaller indices. -/
theorem wf_inputs_lt (d : List NodeData) (hwf : WellFormed d) (m : Nat) (k : Kernel)
    (l : List Nat) (h : dataOf d m = some (NodeData.Operation k l)) :
    ∀ j ∈ l, j < m := by
  intro j hj
  have hm : m < d.length := dataOf_lt d m _ h
  have hall := List.all_eq_true.mp hwf m (List.mem_range.mpr hm)
  simp only [h] at hall
  have := List.all_eq_true.mp hall j hj
  simpa using this

/-- The empty DFS state satisfies the invariant. -/
theorem stInv_init (d : List NodeData) : StInv d ([], []) := by
  refine ⟨by simp, ?_, by simp⟩
  intro pre x post h
  simp at h

/-- Visiting a node that is not an operation preserves the DFS invariant. -/
theorem rh_step_nonop (d : List NodeData) (n : Nat) (st : St)
    (hinv : StInv d st)
    (hnotop : ∀ (k : Kernel) (l : List Nat), ¬ dataOf d n = some (NodeData.Operation k l)) :
    StInv d (n :: st.1, st.2 ++ [n]) := by
  have hnodep : ∀ i, ¬ inputDep d n i := by
    rintro i ⟨k, l, hd, -⟩
    exact hnotop k l hd
  obtain ⟨hA, hB, hC⟩ := hinv
  refine ⟨?_, ?_, ?_⟩
  · intro x
    simp only [List.mem_cons, List.mem_append, List.mem_singleton]
    rw [hA x]
    tauto
  · intro pre x post heq i hdep
    rcases list_concat_decomp st.2 pre post x n heq with ⟨post2, hdc, -⟩ | ⟨hpre, rfl, -⟩
    · exact hB pre x post2 hdc i hdep
    · exact absurd hdep (hnodep i)
  · intro x hx i hdep
    rcases List.mem_cons.mp hx with rfl | hx2
    · exact absurd hdep (hnodep i)
    · exact List.mem_cons.mpr (Or.inr (hC x hx2 i hdep))

/-- Appending an operation after all of its inputs have been visited
preserves the DFS invariant. -/
theorem rh_step_op (d : List NodeData) (n : Nat) (k : Kernel) (l : List Nat) (st2 : St)
    (hd : dataOf d n = some (NodeData.Operation k l))
    (hinv2 : StInv d st2) (hmem : ∀ i ∈ l, i ∈ st2.1) :
    StInv d (n :: st2.1, st2.2 ++ [n]) := by
  obtain ⟨hA, hB, hC⟩ := hinv2
  have hdep_mem : ∀ i, inputDep d n i → i ∈ st2.1 := by
    rintro i ⟨k2, l2, hd2, hil⟩
    rw [hd] at hd2
    simp only [Option.some.injEq, NodeData.Operation.injEq] at hd2
    exact hmem i (hd2.2 ▸ hil)
  refine ⟨?_, ?_, ?_⟩
  · intro x
    simp only [List.mem_cons, List.mem_append, List.mem_singleton]
    rw [hA x]
    tauto
  · intro pre x post heq i hdep
    rcases list_concat_decomp st2.2 pre post x n heq with ⟨post2, hdc, -⟩ | ⟨hpre, rfl, -⟩
    · exact hB pre x post2 hdc i hdep
    · rw [hpre]
      exact (hA i).mp (hdep_mem i hdep)
  · intro x hx i hdep
    rcases List.mem_cons.mp hx with rfl | hx2
    · exact List.mem_cons.mpr (Or.inr (hdep_mem i hdep))
    · exact List.mem_cons.mpr (Or.inr (hC x hx2 i hdep))

/-- The loop over a node's inputs preserves the DFS invariant, extends the
ordering, grows the visited set monotonically, ends with every listed input
visited, and keeps everything in range, provided the recursion it invokes
does the same. -/
theorem vl_main (d : List NodeData) (f : Nat → St → Option St)
    (hf : ∀ (n : Nat) (st st' : St), StInv d st → (∀ x ∈ st.1, x < d.length) →
      n < d.length → f n st = some st' →
      StInv d st' ∧ (∃ t, st'.2 = st.2 ++ t) ∧ (∀ x ∈ st.1, x ∈ st'.1) ∧
        n ∈ st'.1 ∧ (∀ x ∈ st'.1, x < d.length)) :
    ∀ (l : List Nat) (st st' : St), StInv d st → (∀ x ∈ st.1, x < d.length) →
      (∀ i ∈ l, i < d.length) → visitList f l st = some st' →
      StInv d st' ∧ (∃ t, st'.2 = st.2 ++ t) ∧ (∀ x ∈ st.1, x ∈ st'.1) ∧
        (∀ i ∈ l, i ∈ st'.1) ∧ (∀ x ∈ st'.1, x < d.length) := by
  intro l
  induction l with
  | nil =>
    intro st st' hinv hbound _ hvl
    have hst : st = st' := by simpa [visitList] using hvl
    subst hst
    exact ⟨hinv, ⟨[], by simp⟩, fun x hx => hx, by simp, hbound⟩
  | cons i rest ih =>
    intro st st' hinv hbound hl hvl
    by_cases hmem : i ∈ st.1
    · simp only [visitList] at hvl
      rw [if_pos hmem] at hvl
      obtain ⟨h1, h2, h3, h4, h5⟩ := ih st st' hinv hbound (fun j hj => hl j (by simp [hj])) hvl
      refine ⟨h1, h2, h3, ?_, h5⟩
      intro j hj
      rcases List.mem_cons.mp hj with rfl | hj2
      · exact h3 j hmem
      · exact h4 j hj2
    · simp only [visitList] at hvl
      rw [if_neg hmem] at hvl
      cases hfi : f i st with
      | none => rw [hfi] at hvl; cases hvl
      | some st2 =>
        rw [hfi] at hvl
        obtain ⟨g1, g2, g3, g4, g5⟩ := hf i st st2 hinv hbound (hl i (by simp)) hfi
        obtain ⟨h1, h2, h3, h4, h5⟩ := ih st2 st' g1 g5 (fun j hj => hl j (by simp [hj])) hvl
        refine ⟨h1, ?_, fun x hx => h3 x (g3 x hx), ?_, h5⟩
        · obtain ⟨t1, ht1⟩ := g2
          obtain ⟨t2, ht2⟩ := h2
          exact ⟨t1 ++ t2, by rw [ht2, ht1, List.append_assoc]⟩
        · intro j hj
          rcases List.mem_cons.mp hj with rfl | hj2
          · exact h3 j g4
          · exact h4 j hj2

/-- The recursive helper preserves the DFS invariant, appends to the
ordering, grows the visited set, visits its argument, keeps everything in
range, and leaves its argument last in the ordering. -/
theorem rh_main (d : List NodeData)
    (hb : ∀ (m : Nat) (k : Kernel) (l : List Nat),
      dataOf d m = some (NodeData.Operation k l) → ∀ j ∈ l, j < d.length) :
    ∀ (fuel n : Nat) (st st' : St), StInv d st → (∀ x ∈ st.1, x < d.length) →
      n < d.length → recursive_helper d fuel n st = some st' →
      StInv d st' ∧ (∃ t, st'.2 = st.2 ++ t) ∧ (∀ x ∈ st.1, x ∈ st'.1) ∧
        n ∈ st'.1 ∧ (∀ x ∈ st'.1, x < d.length) ∧ st'.2.getLast? = some n := by
  intro fuel
  induction fuel with
  | zero =>
    intro n st st' _ _ _ h
    rw [recursive_helper_zero] at h
    cases h
  | succ f ih =>
    intro n st st' hinv hbound hn h
    rw [recursive_helper_succ] at h
    cases hd : dataOf d n with
    | none =>
      simp only [helperStep, hd] at h
      have hst' : st' = (n :: st.1, st.2 ++ [n]) := (Option.some.inj h).symm
      subst hst'
      refine ⟨rh_step_nonop d n st hinv (fun k l hk => by rw [hd] at hk; cases hk), ⟨[n], rfl⟩,
        fun x hx => List.mem_cons.mpr (Or.inr hx), List.mem_cons.mpr (Or.inl rfl), ?_,
        list_getLast?_concat st.2 n⟩
      intro x hx
      rcases List.mem_cons.mp hx with rfl | hx2
      · exact hn
      · exact hbound x hx2
    | some nd =>
      cases nd with
      | Operation k l =>
        simp only [helperStep, hd] at h
        cases hvl : visitList (recursive_helper d f) l st with
        | none => rw [hvl] at h; cases h
        | some st2 =>
          rw [hvl] at h
          have hst' : st' = (n :: st2.1, st2.2 ++ [n]) := (Option.some.inj h).symm
          subst hst'
          have hfspec : ∀ (m : Nat) (stA stB : St), StInv d stA → (∀ x ∈ stA.1, x < d.length) →
              m < d.length → recursive_helper d f m stA = some stB →
              StInv d stB ∧ (∃ t, stB.2 = stA.2 ++ t) ∧ (∀ x ∈ stA.1, x ∈ stB.1) ∧
                m ∈ stB.1 ∧ (∀ x ∈ stB.1, x < d.length) := by
            intro m stA stB hA hBo hm hrec
            obtain ⟨r1, r2, r3, r4, r5, -⟩ := ih m stA stB hA hBo hm hrec
            exact ⟨r1, r2, r3, r4, r5⟩
          obtain ⟨g1, g2, g3, g4, g5⟩ :=
            vl_main d (recursive_helper d f) hfspec l st st2 hinv hbound (hb n k l hd) hvl
          refine ⟨rh_step_op d n k l st2 hd g1 g4, ?_,
            fun x hx => List.mem_cons.mpr (Or.inr (g3 x hx)),
            List.mem_cons.mpr (Or.inl rfl), ?_, list_getLast?_concat st2.2 n⟩
          · obtain ⟨t, ht⟩ := g2
            exact ⟨t ++ [n], by rw [ht, List.append_assoc]⟩
          · intro x hx
            rcases List.mem_cons.mp hx with rfl | hx2
            · exact hn
            · exact g5 x hx2
      | Constant v =>
        simp only [helperStep, hd] at h
        have hst' : st' = (n :: st.1, st.2 ++ [n]) := (Option.some.inj h).symm
        subst hst'
        refine ⟨rh_step_nonop d n st hinv (fun k l hk => by rw [hd] at hk; cases hk), ⟨[n], rfl⟩,
          fun x hx => List.mem_cons.mpr (Or.inr hx), List.mem_cons.mpr (Or.inl rfl), ?_,
          list_getLast?_concat st.2 n⟩
        intro x hx
        rcases List.mem_cons.mp hx with rfl | hx2
        · exact hn
        · exact hbound x hx2
      | Variable v =>
        simp only [helperStep, hd] at h
        have hst' : st' = (n :: st.1, st.2 ++ [n]) := (Option.some.inj h).symm
        subst hst'
        refine ⟨rh_step_nonop d n st hinv (fun k l hk => by rw [hd] at hk; cases hk), ⟨[n], rfl⟩,
          fun x hx => List.mem_cons.mpr (Or.inr hx), List.mem_cons.mpr (Or.inl rfl), ?_,
          list_getLast?_concat st.2 n⟩
        intro x hx
        rcases List.mem_cons.mp hx with rfl | hx2
        · exact hn
        · exact hbound x hx2
      | Placeholder =>
        simp only [helperStep, hd] at h
        have hst' : st' = (n :: st.1, st.2 ++ [n]) := (Option.some.inj h).symm
        subst hst'
        refine ⟨rh_step_nonop d n st hinv (fun k l hk => by rw [hd] at hk; cases hk), ⟨[n], rfl⟩,
          fun x hx => List.mem_cons.mpr (Or.inr hx), List.mem_cons.mpr (Or.inl rfl), ?_,
          list_getLast?_concat st.2 n⟩
        intro x hx
        rcases List.mem_cons.mp hx with rfl | hx2
        · exact hn
        · exact hbound x hx2

/-- The input loop succeeds when the recursion it invokes succeeds on every
listed input. -/
theorem vl_some (f : Nat → St → Option St) :
    ∀ (l : List Nat), (∀ i ∈ l, ∀ st1 : St, ∃ st2, f i st1 = some st2) →
      ∀ st : St, ∃ st', visitList f l st = some st' := by
  intro l
  induction l with
  | nil => intro _ st; exact ⟨st, rfl⟩
  | cons i rest ih =>
    intro hl st
    by_cases hmem : i ∈ st.1
    · obtain ⟨st', h⟩ := ih (fun j hj => hl j (by simp [hj])) st
      refine ⟨st', ?_⟩
      simp only [visitList]
      rw [if_pos hmem]
      exact h
    · obtain ⟨st2, h2⟩ := hl i (by simp) st
      obtain ⟨st', h⟩ := ih (fun j hj => hl j (by simp [hj])) st2
      refine ⟨st', ?_⟩
      simp only [visitList]
      rw [if_neg hmem, h2]
      exact h

/-- On a well-formed store the recursive helper succeeds whenever the fuel
exceeds the node index: input indices strictly decrease so recursion depth
is bounded by the index of the root. -/
theorem rh_some (d : List NodeData) (hwf : WellFormed d) :
    ∀ (fuel n : Nat), n < fuel → ∀ st : St, ∃ st', recursive_helper d fuel n st = some st' := by
  intro fuel
  induction fuel with
  | zero => intro n h; exact absurd h (Nat.not_lt_zero n)
  | succ f ih =>
    intro n hn st
    rw [recursive_helper_succ]
    cases hd : dataOf d n with
    | none => exact ⟨(n :: st.1, st.2 ++ [n]), by simp [helperStep, hd]⟩
    | some nd =>
      cases nd with
      | Operation k l =>
        have hrec : ∀ i ∈ l, ∀ st1 : St, ∃ st2, recursive_helper d f i st1 = some st2 := by
          intro i hi st1
          have h1 : i < n := wf_inputs_lt d hwf n k l hd i hi
          exact ih i (by omega) st1
        obtain ⟨st2, hvl⟩ := vl_some (recursive_helper d f) l hrec st
        exact ⟨(n :: st2.1, st2.2 ++ [n]), by simp [helperStep, hd, hvl]⟩
      | Constant v => exact ⟨(n :: st.1, st.2 ++ [n]), by simp [helperStep, hd]⟩
      | Variable v => exact ⟨(n :: st.1, st.2 ++ [n]), by simp [helperStep, hd]⟩
      | Placeholder => exact ⟨(n :: st.1, st.2 ++ [n]), by simp [helperStep, hd]⟩

/-- A set closed under dependency edges contains everything reachable from
any of its members. -/
theorem reaches_mem (d : List NodeData) (v : List Nat)
    (hC : ∀ x ∈ v, ∀ i, inputDep d x i → i ∈ v) (r x : Nat)
    (hr : r ∈ v) (h : Reaches d r x) : x ∈ v := by
  induction h with
  | refl => exact hr
  | tail h1 h2 ih => exact hC _ ih _ h2

/-- Summary of the topological sort on a well-formed store: with the store's
size as fuel it succeeds from any in-range root, the resulting ordering
satisfies the sortedness guarantee, ends with the root, contains every node
reachable from the root, and stays in range. -/
theorem topo_spec (d : List NodeData) (root : Nat) (hwf : WellFormed d)
    (hroot : root < d.length) :
    ∃ ord, topology_sort d d.length root = some ord ∧ SortedOrd d ord ∧
      ord.getLast? = some root ∧ root ∈ ord ∧
      (∀ x, Reaches d root x → x ∈ ord) ∧ (∀ x ∈ ord, x < d.length) := by
  obtain ⟨st', h⟩ := rh_some d hwf d.length root hroot ([], [])
  have hb : ∀ (m : Nat) (k : Kernel) (l : List Nat),
      dataOf d m = some (NodeData.Operation k l) → ∀ j ∈ l, j < d.length := by
    intro m k l hm j hj
    have h1 : j < m := wf_inputs_lt d hwf m k l hm j hj
    have h2 : m < d.length := dataOf_lt d m _ hm
    omega
  obtain ⟨g1, g2, g3, g4, g5, g6⟩ :=
    rh_main d hb d.length root ([], []) st' (stInv_init d) (by simp) hroot h
  refine ⟨st'.2, by simp [topology_sort, h], g1.2.1, g6, (g1.1 root).mp g4, ?_, ?_⟩
  · intro x hx
    exact (g1.1 x).mp (reaches_mem d st'.1 g1.2.2 root x g4 hx)
  · intro x hx
    exact g5 x ((g1.1 x).mpr hx)

/-- On the self-loop graph the recursive helper exhausts any amount of fuel:
the recursion of the source never terminates there. -/
theorem rh_selfLoop (fuel : Nat) :
    ∀ st : St, 0 ∉ st.1 → recursive_helper selfLoop fuel 0 st = Option.none := by
  induction fuel with
  | zero => intro st _; rfl
  | succ f ih =>
    intro st hst
    rw [recursive_helper_succ]
    have hd : dataOf selfLoop 0 = some (NodeData.Operation Kernel.add [0]) := rfl
    simp only [helperStep, hd, visitList]
    rw [if_neg hst, ih st hst]

/-- Claim C2: on a well-formed store (the invariant every constructor-built
graph satisfies, which makes reachable dependency sub-graphs acyclic), the
topological sort of an in-range root succeeds, every input of every
operation in the ordering occurs at a strictly earlier position, and the
root is last. -/
theorem topology_sort_ordering (d : List NodeData) (root : Nat)
    (hwf : WellFormed d) (hroot : root < d.length) :
    ∃ ord, topology_sort d d.length root = some ord ∧ SortedOrd d ord ∧
      ord.getLast? = some root := by
  obtain ⟨ord, h1, h2, h3, -, -, -⟩ := topo_spec d root hwf hroot
  exact ⟨ord, h1, h2, h3⟩

/-- Witness for claim C2 on the concrete scenario store with root 2. -/
theorem topology_sort_ordering_witness :
    WellFormed (dataMap exS.nodes) ∧ 2 < (dataMap exS.nodes).length ∧
    (∃ ord, topology_sort (dataMap exS.nodes) (dataMap exS.nodes).length 2 = some ord ∧
      SortedOrd (dataMap exS.nodes) ord ∧ ord.getLast? = some 2) :=
  ⟨rfl, by decide, topology_sort_ordering (dataMap exS.nodes) 2 rfl (by decide)⟩

/-- Claim C7: on a well-formed store (whose reachable sub-graphs are finite
DAGs) the topological sort terminates with a finite sequence, and on the
cyclic self-loop graph it diverges — no amount of fuel makes the recursion
of the source return. -/
theorem topology_sort_termination :
    (∀ (d : List NodeData) (root : Nat), WellFormed d → root < d.length →
      ∃ ord, topology_sort d d.length root = some ord) ∧
    (∀ fuel : Nat, topology_sort selfLoop fuel 0 = Option.none) := by
  constructor
  · intro d root hwf hroot
    obtain ⟨ord, h, -, -, -, -, -⟩ := topo_spec d root hwf hroot
    exact ⟨ord, h⟩
  · intro fuel
    simp [topology_sort, rh_selfLoop fuel ([], []) (by simp)]

/-- Witness for claim C7: the sort succeeds on the concrete scenario store
and diverges on the self-loop graph for a sample fuel. -/
theorem topology_sort_termination_witness :
    (∃ ord, topology_sort (dataMap exS.nodes) (dataMap exS.nodes).length 2 = some ord) ∧
    topology_sort selfLoop 7 0 = Option.none :=
  ⟨topology_sort_termination.1 (dataMap exS.nodes) 2 rfl (by decide),
   topology_sort_termination.2 7⟩

/-- The sortedness guarantee read at the split point of the ordering. -/
theorem sortedOrd_mid (d : List NodeData) (done rest : List Nat) (n : Nat)
    (h : SortedOrd d (done ++ n :: rest)) : ∀ i, inputDep d n i → i ∈ done :=
  fun i hi => h done n rest rfl i hi

/-- An add kernel can only fail with a TypeError. -/
theorem valueAdd_error (a b : Value) (e : TFError) (h : valueAdd a b = Except.error e) :
    e = TFError.typeErr := by
  cases a <;> cases b <;> simp [valueAdd] at h <;> exact h.symm

/-- A multiply kernel can only fail with a TypeError. -/
theorem valueMul_error (a b : Value) (e : TFError) (h : valueMul a b = Except.error e) :
    e = TFError.typeErr := by
  cases a <;> cases b <;> simp [valueMul] at h <;> exact h.symm

/-- Every failure of a forward kernel is a TypeError. -/
theorem forward_error (k : Kernel) (vals : List Value) (e : TFError)
    (h : Kernel.forward k vals = Except.error e) : e = TFError.typeErr := by
  cases k with
  | base =>
    cases vals with
    | nil => simp [Kernel.forward] at h
    | cons a t => simp [Kernel.forward] at h; exact h.symm
  | add =>
    cases vals with
    | nil => simp [Kernel.forward] at h; exact h.symm
    | cons a t =>
      cases t with
      | nil => simp [Kernel.forward] at h; exact h.symm
      | cons b t2 =>
        cases t2 with
        | nil => exact valueAdd_error a b e h
        | cons c t3 => simp [Kernel.forward] at h; exact h.symm
  | multiply =>
    cases vals with
    | nil => simp [Kernel.forward] at h; exact h.symm
    | cons a t =>
      cases t with
      | nil => simp [Kernel.forward] at h; exact h.symm
      | cons b t2 =>
        cases t2 with
        | nil => exact valueMul_error a b e h
        | cons c t3 => simp [Kernel.forward] at h; exact h.symm

/-- Gathering outputs reads only the outputs of the listed nodes. -/
theorem gather_congr (g g2 : List Node) (l : List Nat)
    (h : ∀ i ∈ l, outputOf g i = outputOf g2 i) :
    gatherOutputs g l = gatherOutputs g2 l := by
  induction l with
  | nil => rfl
  | cons i rest ih =>
    simp only [gatherOutputs]
    rw [h i (by simp), ih (fun j hj => h j (by simp [hj]))]

/-- Gathering succeeds when every listed node has an assigned output. -/
theorem gather_some (g : List Node) (l : List Nat)
    (h : ∀ i ∈ l, ∃ v, outputOf g i = some v) :
    ∃ vs, gatherOutputs g l = some vs := by
  induction l with
  | nil => exact ⟨[], rfl⟩
  | cons i rest ih =>
    obtain ⟨v, hv⟩ := h i (by simp)
    obtain ⟨vs, hvs⟩ := ih (fun j hj => h j (by simp [hj]))
    exact ⟨v :: vs, by simp [gatherOutputs, hv, hvs]⟩

/-- A node with an assigned output is in range. -/
theorem outputOf_some_lt (g : List Node) (m : Nat) (w : Value)
    (h : outputOf g m = some w) : m < g.length := by
  unfold outputOf at h
  cases hg : g.get? m with
  | none => rw [hg] at h; cases h
  | some node => exact list_get?_some_lt g m node hg

/-- An output assignment preserves the presence of assigned outputs. -/
theorem outputOf_setOutput_pres (s : TFState) (n m : Nat) (v w : Value)
    (h : outputOf s.nodes m = some w) :
    ∃ u, outputOf (setOutput s n v).nodes m = some u := by
  by_cases hnm : n = m
  · subst hnm
    exact ⟨v, outputOf_setOutput_self s n v (outputOf_some_lt s.nodes n w h)⟩
  · exact ⟨w, by rw [outputOf_setOutput_other s n m v hnm]; exact h⟩

/-- One output assignment keeps the sortedness guarantee, extends the
assigned-output prefix by the assigned node, and keeps the remaining nodes
in range. -/
theorem spec_after_set (s : TFState) (done rest2 : List Nat) (n : Nat) (v : Value)
    (hn : n < s.nodes.length)
    (hsort : SortedOrd (dataMap s.nodes) (done ++ n :: rest2))
    (hdone : ∀ x ∈ done, ∃ w, outputOf s.nodes x = some w)
    (hbound : ∀ x ∈ rest2, x < s.nodes.length) :
    SortedOrd (dataMap (setOutput s n v).nodes) ((done ++ [n]) ++ rest2) ∧
    (∀ x ∈ done ++ [n], ∃ w, outputOf (setOutput s n v).nodes x = some w) ∧
    (∀ x ∈ rest2, x < (setOutput s n v).nodes.length) := by
  refine ⟨?_, ?_, ?_⟩
  · rw [setOutput_dataMap]
    have heq : (done ++ [n]) ++ rest2 = done ++ n :: rest2 := by simp
    rw [heq]
    exact hsort
  · intro x hx
    rcases List.mem_append.mp hx with hx2 | hx2
    · obtain ⟨w, hw⟩ := hdone x hx2
      exact outputOf_setOutput_pres s n x v w hw
    · have hxn : x = n := by simpa using hx2
      subst hxn
      exact ⟨v, outputOf_setOutput_self s x v hn⟩
  · intro x hx
    rw [setOutput_length]
    exact hbound x hx

/-- Behaviour of the evaluation loop over a sorted suffix, given outputs
already assigned for the processed prefix: when the loop completes, every
node of prefix and suffix has an assigned output and every placeholder of
the suffix was found in the feed; when the loop stops with an error, that
error is a kernel TypeError or a MissingFeedError naming an unfed
placeholder. -/
theorem runLoop_spec (feed : List (Nat × Value)) :
    ∀ (rest done : List Nat) (s : TFState),
      SortedOrd (dataMap s.nodes) (done ++ rest) →
      (∀ x ∈ done, ∃ v, outputOf s.nodes x = some v) →
      (∀ x ∈ rest, x < s.nodes.length) →
      ((runLoop feed rest s).2 = Option.none →
        (∀ x, x ∈ done ∨ x ∈ rest →
          ∃ v, outputOf (runLoop feed rest s).1.nodes x = some v) ∧
        (∀ q ∈ rest, dataOf (dataMap s.nodes) q = some NodeData.Placeholder →
          ¬ lookupFeed feed q = Option.none)) ∧
      (∀ e, (runLoop feed rest s).2 = some e →
        e = TFError.typeErr ∨ ∃ q, e = TFError.missingFeed q ∧
          dataOf (dataMap s.nodes) q = some NodeData.Placeholder ∧
          lookupFeed feed q = Option.none) := by
  intro rest
  induction rest with
  | nil =>
    intro done s hsort hdone hbound
    constructor
    · intro _
      refine ⟨?_, by simp⟩
      intro x hx
      rcases hx with hx | hx
      · exact hdone x hx
      · simp at hx
    · intro e he
      simp [runLoop] at he
  | cons n rest2 ih =>
    intro done s hsort hdone hbound
    have hn : n < s.nodes.length := hbound n (by simp)
    have hnd : n < (dataMap s.nodes).length := by rw [dataMap_length]; exact hn
    obtain ⟨nd, hd0⟩ := list_lt_get?_some (dataMap s.nodes) n hnd
    have hd : dataOf (dataMap s.nodes) n = some nd := hd0
    have hcont : ∀ v : Value,
        runStep feed s n = (setOutput s n v, Option.none) →
        (dataOf (dataMap s.nodes) n = some NodeData.Placeholder →
          ¬ lookupFeed feed n = Option.none) →
        ((runLoop feed (n :: rest2) s).2 = Option.none →
          (∀ x, x ∈ done ∨ x ∈ n :: rest2 →
            ∃ v2, outputOf (runLoop feed (n :: rest2) s).1.nodes x = some v2) ∧
          (∀ q ∈ n :: rest2, dataOf (dataMap s.nodes) q = some NodeData.Placeholder →
            ¬ lookupFeed feed q = Option.none)) ∧
        (∀ e, (runLoop feed (n :: rest2) s).2 = some e →
          e = TFError.typeErr ∨ ∃ q, e = TFError.missingFeed q ∧
            dataOf (dataMap s.nodes) q = some NodeData.Placeholder ∧
            lookupFeed feed q = Option.none) := by
      intro v hrs hqn
      have hrl : runLoop feed (n :: rest2) s = runLoop feed rest2 (setOutput s n v) := by
        simp only [runLoop, hrs]
      obtain ⟨hs1, hs2, hs3⟩ := spec_after_set s done rest2 n v hn hsort hdone
        (fun x hx => hbound x (by simp [hx]))
      obtain ⟨ih1, ih2⟩ := ih (done ++ [n]) (setOutput s n v) hs1 hs2 hs3
      rw [setOutput_dataMap] at ih1 ih2
      rw [hrl]
      constructor
      · intro hnone
        obtain ⟨p1, p2⟩ := ih1 hnone
        constructor
        · intro x hx
          apply p1 x
          rcases hx with hx | hx
          · exact Or.inl (List.mem_append.mpr (Or.inl hx))
          · rcases List.mem_cons.mp hx with rfl | hx2
            · exact Or.inl (List.mem_append.mpr (Or.inr (by simp)))
            · exact Or.inr hx2
        · intro q hq hqd
          rcases List.mem_cons.mp hq with rfl | hq2
          · exact hqn hqd
          · exact p2 q hq2 hqd
      · intro e he
        exact ih2 e he
    cases nd with
    | Placeholder =>
      cases hl : lookupFeed feed n with
      | none =>
        have hrs : runStep feed s n = (s, some (TFError.missingFeed n)) := by
          simp [runStep, hd, hl]
        have hrl : runLoop feed (n :: rest2) s = (s, some (TFError.missingFeed n)) := by
          simp only [runLoop, hrs]
        rw [hrl]
        constructor
        · intro habs
          simp at habs
        · intro e he
          exact Or.inr ⟨n, (Option.some.inj he).symm, hd, hl⟩
      | some v =>
        have hrs : runStep feed s n = (setOutput s n v, Option.none) := by
          simp [runStep, hd, hl]
        exact hcont v hrs (fun _ => by simp [hl])
    | Variable v =>
      have hrs : runStep feed s n = (setOutput s n v, Option.none) := by
        simp [runStep, hd]
      exact hcont v hrs (fun hqd => by rw [hd] at hqd; simp at hqd)
    | Constant v =>
      have hrs : runStep feed s n = (setOutput s n v, Option.none) := by
        simp [runStep, hd]
      exact hcont v hrs (fun hqd => by rw [hd] at hqd; simp at hqd)
    | Operation k l =>
      have hdeps : ∀ i ∈ l, i ∈ done := by
        intro i hi
        exact sortedOrd_mid (dataMap s.nodes) done rest2 n hsort i ⟨k, l, hd, hi⟩
      have hpres : ∀ i ∈ l, ∃ v, outputOf s.nodes i = some v := by
        intro i hi
        exact hdone i (hdeps i hi)
      obtain ⟨vals, hg⟩ := gather_some s.nodes l hpres
      cases hf : Kernel.forward k vals with
      | ok v =>
        have hrs : runStep feed s n = (setOutput s n v, Option.none) := by
          simp [runStep, hd, hg, hf]
        exact hcont v hrs (fun hqd => by rw [hd] at hqd; simp at hqd)
      | error e0 =>
        have hrs : runStep feed s n = (s, some e0) := by
          simp [runStep, hd, hg, hf]
        have hrl : runLoop feed (n :: rest2) s = (s, some e0) := by
          simp only [runLoop, hrs]
        rw [hrl]
        constructor
        · intro habs
          simp at habs
        · intro e he
          have he2 : e0 = e := Option.some.inj he
          subst he2
          exact Or.inl (forward_error k vals e0 hf)

/-- Two states with the same variant data and agreeing outputs on the
processed prefix run the evaluation loop identically over a sorted suffix:
same error outcome, and, on completion, agreeing outputs on prefix and
suffix. -/
theorem runLoop_congr (feed : List (Nat × Value)) :
    ∀ (rest done : List Nat) (s t : TFState),
      dataMap s.nodes = dataMap t.nodes →
      (∀ x ∈ done, outputOf s.nodes x = outputOf t.nodes x) →
      SortedOrd (dataMap s.nodes) (done ++ rest) →
      (runLoop feed rest s).2 = (runLoop feed rest t).2 ∧
      ((runLoop feed rest s).2 = Option.none →
        ∀ x, x ∈ done ∨ x ∈ rest →
          outputOf (runLoop feed rest s).1.nodes x =
            outputOf (runLoop feed rest t).1.nodes x) := by
  intro rest
  induction rest with
  | nil =>
    intro done s t hdm hout hsort
    refine ⟨rfl, ?_⟩
    intro _ x hx
    rcases hx with hx | hx
    · exact hout x hx
    · simp at hx
  | cons n rest2 ih =>
    intro done s t hdm hout hsort
    have hlen : s.nodes.length = t.nodes.length := by
      rw [← dataMap_length, hdm, dataMap_length]
    cases hd : dataOf (dataMap s.nodes) n with
    | none =>
      have hd2 : dataOf (dataMap t.nodes) n = Option.none := by rw [← hdm]; exact hd
      have hrs : runStep feed s n = (s, some TFError.attrErr) := by simp [runStep, hd]
      have hrt : runStep feed t n = (t, some TFError.attrErr) := by simp [runStep, hd2]
      have hrls : runLoop feed (n :: rest2) s = (s, some TFError.attrErr) := by
        simp only [runLoop, hrs]
      have hrlt : runLoop feed (n :: rest2) t = (t, some TFError.attrErr) := by
        simp only [runLoop, hrt]
      rw [hrls, hrlt]
      exact ⟨rfl, fun habs => by simp at habs⟩
    | some nd =>
      have hd2 : dataOf (dataMap t.nodes) n = some nd := by rw [← hdm]; exact hd
      have hn : n < s.nodes.length := by
        have := dataOf_lt (dataMap s.nodes) n nd hd
        rwa [dataMap_length] at this
      have hstop : ∀ e0 : TFError,
          runStep feed s n = (s, some e0) →
          runStep feed t n = (t, some e0) →
          (runLoop feed (n :: rest2) s).2 = (runLoop feed (n :: rest2) t).2 ∧
          ((runLoop feed (n :: rest2) s).2 = Option.none →
            ∀ x, x ∈ done ∨ x ∈ n :: rest2 →
              outputOf (runLoop feed (n :: rest2) s).1.nodes x =
                outputOf (runLoop feed (n :: rest2) t).1.nodes x) := by
        intro e0 hrs hrt
        have hrls : runLoop feed (n :: rest2) s = (s, some e0) := by
          simp only [runLoop, hrs]
        have hrlt : runLoop feed (n :: rest2) t = (t, some e0) := by
          simp only [runLoop, hrt]
        rw [hrls, hrlt]
        exact ⟨rfl, fun habs => by simp at habs⟩
      have hcont : ∀ v : Value,
          runStep feed s n = (setOutput s n v, Option.none) →
          runStep feed t n = (setOutput t n v, Option.none) →
          (runLoop feed (n :: rest2) s).2 = (runLoop feed (n :: rest2) t).2 ∧
          ((runLoop feed (n :: rest2) s).2 = Option.none →
            ∀ x, x ∈ done ∨ x ∈ n :: rest2 →
              outputOf (runLoop feed (n :: rest2) s).1.nodes x =
                outputOf (runLoop feed (n :: rest2) t).1.nodes x) := by
        intro v hrs hrt
        have hrls : runLoop feed (n :: rest2) s = runLoop feed rest2 (setOutput s n v) := by
          simp only [runLoop, hrs]
        have hrlt : runLoop feed (n :: rest2) t = runLoop feed rest2 (setOutput t n v) := by
          simp only [runLoop, hrt]
        have hdm2 : dataMap (setOutput s n v).nodes = dataMap (setOutput t n v).nodes := by
          rw [setOutput_dataMap, setOutput_dataMap]
          exact hdm
        have hout2 : ∀ x ∈ done ++ [n],
            outputOf (setOutput s n v).nodes x = outputOf (setOutput t n v).nodes x := by
          intro x hx
          by_cases hxn : x = n
          · subst hxn
            rw [outputOf_setOutput_self s x v hn, outputOf_setOutput_self t x v (hlen ▸ hn)]
          · rw [outputOf_setOutput_other s n x v (fun hc => hxn hc.symm),
              outputOf_setOutput_other t n x v (fun hc => hxn hc.symm)]
            rcases List.mem_append.mp hx with hx2 | hx2
            · exact hout x hx2
            · exact absurd (by simpa using hx2) hxn
        have hsort2 : SortedOrd (dataMap (setOutput s n v).nodes) ((done ++ [n]) ++ rest2) := by
          rw [setOutput_dataMap]
          have heq : (done ++ [n]) ++ rest2 = done ++ n :: rest2 := by simp
          rw [heq]
          exact hsort
        obtain ⟨c1, c2⟩ := ih (done ++ [n]) (setOutput s n v) (setOutput t n v) hdm2 hout2 hsort2
        rw [hrls, hrlt]
        refine ⟨c1, ?_⟩
        intro hnone x hx
        apply c2 hnone x
        rcases hx with hx | hx
        · exact Or.inl (List.mem_append.mpr (Or.inl hx))
        · rcases List.mem_cons.mp hx with rfl | hx2
          · exact Or.inl (List.mem_append.mpr (Or.inr (by simp)))
          · exact Or.inr hx2
      cases nd with
      | Placeholder =>
        cases hl : lookupFeed feed n with
        | none =>
          exact hstop (TFError.missingFeed n) (by simp [runStep, hd, hl])
            (by simp [runStep, hd2, hl])
        | some v =>
          exact hcont v (by simp [runStep, hd, hl]) (by simp [runStep, hd2, hl])
      | Variable v =>
        exact hcont v (by simp [runStep, hd]) (by simp [runStep, hd2])
      | Constant v =>
        exact hcont v (by simp [runStep, hd]) (by simp [runStep, hd2])
      | Operation k l =>
        have hgeq : gatherOutputs s.nodes l = gatherOutputs t.nodes l := by
          apply gather_congr
          intro i hi
          exact hout i (sortedOrd_mid (dataMap s.nodes) done rest2 n hsort i ⟨k, l, hd, hi⟩)
        cases hg : gatherOutputs s.nodes l with
        | none =>
          have hg2 : gatherOutputs t.nodes l = Option.none := by rw [← hgeq]; exact hg
          exact hstop TFError.attrErr (by simp [runStep, hd, hg])
            (by simp [runStep, hd2, hg2])
        | some vals =>
          have hg2 : gatherOutputs t.nodes l = some vals := by rw [← hgeq]; exact hg
          cases hf : Kernel.forward k vals with
          | ok v =>
            exact hcont v (by simp [runStep, hd, hg, hf]) (by simp [runStep, hd2, hg2, hf])
          | error e0 =>
            exact hstop e0 (by simp [runStep, hd, hg, hf]) (by simp [runStep, hd2, hg2, hf])

/-- Claim C4 amended: when a Placeholder reachable from the evaluation
target has no entry in the feed mapping, Session.run on a well-formed store
fails: with a MissingFeedError naming an unfed placeholder — unless a kernel
raises a TypeError at an operation that precedes every unfed placeholder in
the topological order, in which case that TypeError is raised instead. -/
theorem run_missing_feed_amended (s : TFState) (target p : Nat) (feed : List (Nat × Value))
    (hwf : WellFormed (dataMap s.nodes)) (ht : target < s.nodes.length)
    (hp : dataOf (dataMap s.nodes) p = some NodeData.Placeholder)
    (hr : Reaches (dataMap s.nodes) target p)
    (hf : lookupFeed feed p = Option.none) :
    ∃ e, (Session.run s target feed).1 = Except.error e ∧
      (e = TFError.typeErr ∨ ∃ q, e = TFError.missingFeed q ∧
        dataOf (dataMap s.nodes) q = some NodeData.Placeholder ∧
        lookupFeed feed q = Option.none) := by
  have htd : target < (dataMap s.nodes).length := by rw [dataMap_length]; exact ht
  obtain ⟨ord, htopo, hsort, hlast, hrootmem, hreach, hbound⟩ :=
    topo_spec (dataMap s.nodes) target hwf htd
  have hpord : p ∈ ord := hreach p hr
  have hbound2 : ∀ x ∈ ord, x < s.nodes.length := by
    intro x hx
    have := hbound x hx
    rwa [dataMap_length] at this
  obtain ⟨hS1, hS2⟩ := runLoop_spec feed ord [] s (by simpa using hsort) (by simp) hbound2
  rw [dataMap_length] at htopo
  cases hrl : runLoop feed ord s with
  | mk s2 e2 =>
    rw [hrl] at hS1 hS2
    cases e2 with
    | none =>
      exfalso
      obtain ⟨-, p2⟩ := hS1 rfl
      exact (p2 p hpord hp) hf
    | some e =>
      refine ⟨e, ?_, hS2 e rfl⟩
      simp only [Session.run, htopo, hrl]

/-- Witness for claim C4 amended on the unfed-placeholder scenario with the
empty feed. -/
theorem run_missing_feed_amended_witness :
    ∃ e, (Session.run pS 2 []).1 = Except.error e ∧
      (e = TFError.typeErr ∨ ∃ q, e = TFError.missingFeed q ∧
        dataOf (dataMap pS.nodes) q = some NodeData.Placeholder ∧
        lookupFeed [] q = Option.none) :=
  run_missing_feed_amended pS 2 0 [] rfl (by decide) rfl
    (Reaches.tail (Reaches.refl 2) ⟨Kernel.add, [0, 1], rfl, by simp⟩) rfl

/-- Claim C6: on a well-formed store, running the same target with the same
feed twice in succession, with no external variable mutation in between,
returns identical results: the outputs cached by the first run never leak
into the second, because every output is overwritten before it is read. -/
theorem run_idempotent (s : TFState) (target : Nat) (feed : List (Nat × Value))
    (hwf : WellFormed (dataMap s.nodes)) (ht : target < s.nodes.length) :
    (Session.run (Session.run s target feed).2 target feed).1 =
      (Session.run s target feed).1 := by
  have htd : target < (dataMap s.nodes).length := by rw [dataMap_length]; exact ht
  obtain ⟨ord, htopo, hsort, hlast, hrootmem, hreach, hbound⟩ :=
    topo_spec (dataMap s.nodes) target hwf htd
  rw [dataMap_length] at htopo
  cases hrl : runLoop feed ord s with
  | mk s1 e1 =>
    have hpres := runLoop_pres feed ord s
    rw [hrl] at hpres
    have hlen1 : s1.nodes.length = s.nodes.length := by
      rw [← dataMap_length, hpres.1, dataMap_length]
    have htopo2 : topology_sort (dataMap s1.nodes) s1.nodes.length target = some ord := by
      rw [hpres.1, hlen1]
      exact htopo
    obtain ⟨c1, c2⟩ := runLoop_congr feed ord [] s1 s hpres.1 (by simp)
      (by rw [hpres.1]; simpa using hsort)
    cases e1 with
    | some err =>
      have hrun1 : Session.run s target feed = (Except.error err, s1) := by
        simp only [Session.run, htopo, hrl]
      cases hrl2 : runLoop feed ord s1 with
      | mk s2 e2 =>
        rw [hrl, hrl2] at c1
        have he2 : e2 = some err := c1
        subst he2
        have hrun2 : Session.run s1 target feed = (Except.error err, s2) := by
          simp only [Session.run, htopo2, hrl2]
        rw [hrun1, hrun2]
    | none =>
      have hbound2 : ∀ x ∈ ord, x < s.nodes.length := by
        intro x hx
        have := hbound x hx
        rwa [dataMap_length] at this
      obtain ⟨hS1, -⟩ := runLoop_spec feed ord [] s (by simpa using hsort) (by simp) hbound2
      rw [hrl] at hS1
      obtain ⟨p1, -⟩ := hS1 rfl
      obtain ⟨v, hv⟩ := p1 target (Or.inr hrootmem)
      have hrun1 : Session.run s target feed = (Except.ok v, s1) := by
        simp only [Session.run, htopo, hrl, hv]
      cases hrl2 : runLoop feed ord s1 with
      | mk s2 e2 =>
        rw [hrl, hrl2] at c1 c2
        have he2 : e2 = Option.none := c1
        subst he2
        have hout := c2 rfl target (Or.inr hrootmem)
        rw [hv] at hout
        have hrun2 : Session.run s1 target feed = (Except.ok v, s2) := by
          simp only [Session.run, htopo2, hrl2, hout]
        rw [hrun1, hrun2]

/-- Witness for claim C6 on the concrete scenario store. -/
theorem run_idempotent_witness :
    (Session.run (Session.run exS 2 []).2 2 []).1 = (Session.run exS 2 []).1 :=
  run_idempotent exS 2 [] rfl (by decide)

/-- Claim C10: although the spec types the target as an Operation, running a
Constant or Variable node directly succeeds: its topological sort is the
singleton sequence holding just that node, and the run returns the node's
currently stored value, ignoring the feed. -/
theorem run_on_leaf_node (s : TFState) (n : Nat) (v : Value) (feed : List (Nat × Value))
    (h : dataOf (dataMap s.nodes) n = some (NodeData.Constant v) ∨
      dataOf (dataMap s.nodes) n = some (NodeData.Variable v)) :
    topology_sort (dataMap s.nodes) s.nodes.length n = some [n] ∧
    (Session.run s n feed).1 = Except.ok v := by
  have hn : n < s.nodes.length := by
    rcases h with h | h <;>
      · have := dataOf_lt (dataMap s.nodes) n _ h
        rwa [dataMap_length] at this
  obtain ⟨m, hm⟩ : ∃ m, s.nodes.length = m + 1 := ⟨s.nodes.length - 1, by omega⟩
  have htopo : topology_sort (dataMap s.nodes) s.nodes.length n = some [n] := by
    rw [hm]
    simp only [topology_sort, recursive_helper_succ]
    rcases h with h | h <;> simp [helperStep, h]
  refine ⟨htopo, ?_⟩
  have hrs : runStep feed s n = (setOutput s n v, Option.none) := by
    rcases h with h | h <;> simp [runStep, h]
  have hrl : runLoop feed [n] s = (setOutput s n v, Option.none) := by
    simp only [runLoop, hrs]
  simp only [Session.run, htopo, hrl, outputOf_setOutput_self s n v hn]

/-- Witness for claim C10 on the variable node 1 of the scenario store. -/
theorem run_on_leaf_node_witness :
    topology_sort (dataMap exS.nodes) exS.nodes.length 1 = some [1] ∧
    (Session.run exS 1 []).1 = Except.ok (Value.int 4) :=
  run_on_leaf_node exS 1 (Value.int 4) [] (Or.inr rfl)

/-- Appending a node appends its data to the store of variants. -/
theorem dataMap_append (g : List Node) (x : Node) :
    dataMap (g ++ [x]) = dataMap g ++ [x.data] := by
  simp [dataMap]

/-- Variant data of existing nodes survives appending a node. -/
theorem dataOf_append_of_some (d : List NodeData) (x : NodeData) (m : Nat) (nd : NodeData)
    (h : dataOf d m = some nd) : dataOf (d ++ [x]) m = some nd := by
  unfold dataOf at h ⊢
  rw [list_get?_append_lt d [x] m (list_get?_some_lt d m nd h)]
  exact h

/-- Operation membership survives appending a node. -/
theorem isOpAt_append (d : List NodeData) (x : NodeData) (m : Nat)
    (h : isOpAt d m = true) : isOpAt (d ++ [x]) m = true := by
  unfold isOpAt at h ⊢
  cases hd : dataOf d m with
  | none => rw [hd] at h; simp at h
  | some nd =>
    rw [dataOf_append_of_some d x m nd hd]
    rw [hd] at h
    exact h

/-- Placeholder membership survives appending a node. -/
theorem isPhAt_append (d : List NodeData) (x : NodeData) (m : Nat)
    (h : isPhAt d m = true) : isPhAt (d ++ [x]) m = true := by
  unfold isPhAt at h ⊢
  cases hd : dataOf d m with
  | none => rw [hd] at h; simp at h
  | some nd =>
    rw [dataOf_append_of_some d x m nd hd]
    rw [hd] at h
    exact h

/-- Constant membership survives appending a node. -/
theorem isConstAt_append (d : List NodeData) (x : NodeData) (m : Nat)
    (h : isConstAt d m = true) : isConstAt (d ++ [x]) m = true := by
  unfold isConstAt at h ⊢
  cases hd : dataOf d m with
  | none => rw [hd] at h; simp at h
  | some nd =>
    rw [dataOf_append_of_some d x m nd hd]
    rw [hd] at h
    exact h

/-- Variable membership survives appending a node. -/
theorem isVarAt_append (d : List NodeData) (x : NodeData) (m : Nat)
    (h : isVarAt d m = true) : isVarAt (d ++ [x]) m = true := by
  unfold isVarAt at h ⊢
  cases hd : dataOf d m with
  | none => rw [hd] at h; simp at h
  | some nd =>
    rw [dataOf_append_of_some d x m nd hd]
    rw [hd] at h
    exact h

/-- An index holding an Operation is in range. -/
theorem isOpAt_lt (d : List NodeData) (m : Nat) (h : isOpAt d m = true) : m < d.length := by
  unfold isOpAt at h
  cases hd : dataOf d m with
  | none => rw [hd] at h; simp at h
  | some nd => exact dataOf_lt d m nd hd

/-- An index holding a Placeholder is in range. -/
theorem isPhAt_lt (d : List NodeData) (m : Nat) (h : isPhAt d m = true) : m < d.length := by
  unfold isPhAt at h
  cases hd : dataOf d m with
  | none => rw [hd] at h; simp at h
  | some nd => exact dataOf_lt d m nd hd

/-- An index holding a Constant is in range. -/
theorem isConstAt_lt (d : List NodeData) (m : Nat) (h : isConstAt d m = true) : m < d.length := by
  unfold isConstAt at h
  cases hd : dataOf d m with
  | none => rw [hd] at h; simp at h
  | some nd => exact dataOf_lt d m nd hd

/-- An index holding a Variable is in range. -/
theorem isVarAt_lt (d : List NodeData) (m : Nat) (h : isVarAt d m = true) : m < d.length := by
  unfold isVarAt at h
  cases hd : dataOf d m with
  | none => rw [hd] at h; simp at h
  | some nd => exact dataOf_lt d m nd hd

/-- An index holds at most one of the four variants. -/
theorem variants_exclusive (d : List NodeData) (m : Nat) :
    ¬ (isOpAt d m = true ∧ isPhAt d m = true) ∧
    ¬ (isOpAt d m = true ∧ isConstAt d m = true) ∧
    ¬ (isOpAt d m = true ∧ isVarAt d m = true) ∧
    ¬ (isPhAt d m = true ∧ isConstAt d m = true) ∧
    ¬ (isPhAt d m = true ∧ isVarAt d m = true) ∧
    ¬ (isConstAt d m = true ∧ isVarAt d m = true) := by
  unfold isOpAt isPhAt isConstAt isVarAt
  cases dataOf d m with
  | none => simp
  | some nd => cases nd <;> simp

/-- Appending a strictly larger element keeps a list strictly increasing. -/
theorem increasing_append (l : List Nat) (x : Nat) :
    increasing l = true → (∀ a ∈ l, a < x) → increasing (l ++ [x]) = true := by
  induction l with
  | nil => intro _ _; rfl
  | cons a t ih =>
    intro h hall
    cases t with
    | nil =>
      have hax : a < x := hall a (by simp)
      simp [increasing, hax]
    | cons b t2 =>
      simp only [increasing, Bool.and_eq_true, decide_eq_true_eq] at h
      have hrec := ih h.2 (fun c hc => hall c (by simp [hc]))
      simp only [List.cons_append, increasing, Bool.and_eq_true, decide_eq_true_eq] at hrec ⊢
      exact ⟨h.1, hrec⟩

/-- The new index of a freshly appended Constant holds a Constant. -/
theorem isConstAt_new (d : List NodeData) (v : Value) :
    isConstAt (d ++ [NodeData.Constant v]) d.length = true := by
  unfold isConstAt dataOf
  rw [list_get?_concat_self]

/-- The new index of a freshly appended Variable holds a Variable. -/
theorem isVarAt_new (d : List NodeData) (v : Value) :
    isVarAt (d ++ [NodeData.Variable v]) d.length = true := by
  unfold isVarAt dataOf
  rw [list_get?_concat_self]

/-- The new index of a freshly appended Placeholder holds a Placeholder. -/
theorem isPhAt_new (d : List NodeData) :
    isPhAt (d ++ [NodeData.Placeholder]) d.length = true := by
  unfold isPhAt dataOf
  rw [list_get?_concat_self]

/-- The new index of a freshly appended Operation holds an Operation. -/
theorem isOpAt_new (d : List NodeData) (k : Kernel) (l : List Nat) :
    isOpAt (d ++ [NodeData.Operation k l]) d.length = true := by
  unfold isOpAt dataOf
  rw [list_get?_concat_self]

/-- The bookkeeping invariant implies pairwise disjointness of the four
collections. -/
theorem graphInv_disjoint (s : TFState) (hs : GraphInv s) : GraphDisjoint s := by
  unfold GraphInv GraphInvB at hs
  simp only [Bool.and_eq_true, and_assoc, List.all_eq_true] at hs
  obtain ⟨h1, h2, h3, h4, -, -, -, -⟩ := hs
  intro n
  refine ⟨?_, ?_, ?_⟩
  · intro hop
    have ho := h1 n hop
    exact ⟨fun hph => (variants_exclusive (dataMap s.nodes) n).1 ⟨ho, h2 n hph⟩,
      fun hc => (variants_exclusive (dataMap s.nodes) n).2.1 ⟨ho, h3 n hc⟩,
      fun hv => (variants_exclusive (dataMap s.nodes) n).2.2.1 ⟨ho, h4 n hv⟩⟩
  · intro hph
    have hp := h2 n hph
    exact ⟨fun hc => (variants_exclusive (dataMap s.nodes) n).2.2.2.1 ⟨hp, h3 n hc⟩,
      fun hv => (variants_exclusive (dataMap s.nodes) n).2.2.2.2.1 ⟨hp, h4 n hv⟩⟩
  · intro hc
    exact fun hv => (variants_exclusive (dataMap s.nodes) n).2.2.2.2.2 ⟨h3 n hc, h4 n hv⟩

/-- Registering a Constant preserves the bookkeeping invariant. -/
theorem graphInv_constant (s : TFState) (hs : GraphInv s) (v : Value) :
    GraphInv (Constant.init s v).2 := by
  unfold GraphInv GraphInvB at hs ⊢
  simp only [Bool.and_eq_true, and_assoc, List.all_eq_true] at hs ⊢
  obtain ⟨h1, h2, h3, h4, h5, h6, h7, h8⟩ := hs
  refine ⟨?_, ?_, ?_, ?_, ?_, ?_, ?_, ?_⟩
  · intro x hx
    have hx2 : x ∈ s.graph.operations := hx
    show isOpAt (dataMap (s.nodes ++ [⟨NodeData.Constant v, Option.none⟩])) x = true
    rw [dataMap_append]
    exact isOpAt_append (dataMap s.nodes) _ x (h1 x hx2)
  · intro x hx
    have hx2 : x ∈ s.graph.placeholders := hx
    show isPhAt (dataMap (s.nodes ++ [⟨NodeData.Constant v, Option.none⟩])) x = true
    rw [dataMap_append]
    exact isPhAt_append (dataMap s.nodes) _ x (h2 x hx2)
  · intro x hx
    have hx2 : x ∈ s.graph.constants ++ [s.nodes.length] := hx
    show isConstAt (dataMap (s.nodes ++ [⟨NodeData.Constant v, Option.none⟩])) x = true
    rw [dataMap_append]
    rcases List.mem_append.mp hx2 with hx3 | hx3
    · exact isConstAt_append (dataMap s.nodes) _ x (h3 x hx3)
    · have hx4 : x = s.nodes.length := by simpa using hx3
      subst hx4
      rw [← dataMap_length s.nodes]
      exact isConstAt_new (dataMap s.nodes) v
  · intro x hx
    have hx2 : x ∈ s.graph.vars := hx
    show isVarAt (dataMap (s.nodes ++ [⟨NodeData.Constant v, Option.none⟩])) x = true
    rw [dataMap_append]
    exact isVarAt_append (dataMap s.nodes) _ x (h4 x hx2)
  · exact h5
  · exact h6
  · show increasing (s.graph.constants ++ [s.nodes.length]) = true
    refine increasing_append s.graph.constants s.nodes.length h7 ?_
    intro a ha
    have := isConstAt_lt (dataMap s.nodes) a (h3 a ha)
    rwa [dataMap_length] at this
  · exact h8

/-- Registering a Variable preserves the bookkeeping invariant. -/
theorem graphInv_variable (s : TFState) (hs : GraphInv s) (w : Value) :
    GraphInv (Variable.init s w).2 := by
  unfold GraphInv GraphInvB at hs ⊢
  simp only [Bool.and_eq_true, and_assoc, List.all_eq_true] at hs ⊢
  obtain ⟨h1, h2, h3, h4, h5, h6, h7, h8⟩ := hs
  refine ⟨?_, ?_, ?_, ?_, ?_, ?_, ?_, ?_⟩
  · intro x hx
    have hx2 : x ∈ s.graph.operations := hx
    show isOpAt (dataMap (s.nodes ++ [⟨NodeData.Variable w, Option.none⟩])) x = true
    rw [dataMap_append]
    exact isOpAt_append (dataMap s.nodes) _ x (h1 x hx2)
  · intro x hx
    have hx2 : x ∈ s.graph.placeholders := hx
    show isPhAt (dataMap (s.nodes ++ [⟨NodeData.Variable w, Option.none⟩])) x = true
    rw [dataMap_append]
    exact isPhAt_append (dataMap s.nodes) _ x (h2 x hx2)
  · intro x hx
    have hx2 : x ∈ s.graph.constants := hx
    show isConstAt (dataMap (s.nodes ++ [⟨NodeData.Variable w, Option.none⟩])) x = true
    rw [dataMap_append]
    exact isConstAt_append (dataMap s.nodes) _ x (h3 x hx2)
  · intro x hx
    have hx2 : x ∈ s.graph.vars ++ [s.nodes.length] := hx
    show isVarAt (dataMap (s.nodes ++ [⟨NodeData.Variable w, Option.none⟩])) x = true
    rw [dataMap_append]
    rcases List.mem_append.mp hx2 with hx3 | hx3
    · exact isVarAt_append (dataMap s.nodes) _ x (h4 x hx3)
    · have hx4 : x = s.nodes.length := by simpa using hx3
      subst hx4
      rw [← dataMap_length s.nodes]
      exact isVarAt_new (dataMap s.nodes) w
  · exact h5
  · exact h6
  · exact h7
  · show increasing (s.graph.vars ++ [s.nodes.length]) = true
    refine increasing_append s.graph.vars s.nodes.length h8 ?_
    intro a ha
    have := isVarAt_lt (dataMap s.nodes) a (h4 a ha)
    rwa [dataMap_length] at this

/-- Registering a Placeholder preserves the bookkeeping invariant. -/
theorem graphInv_placeholder (s : TFState) (hs : GraphInv s) :
    GraphInv (Placeholder.init s).2 := by
  unfold GraphInv GraphInvB at hs ⊢
  simp only [Bool.and_eq_true, and_assoc, List.all_eq_true] at hs ⊢
  obtain ⟨h1, h2, h3, h4, h5, h6, h7, h8⟩ := hs
  refine ⟨?_, ?_, ?_, ?_, ?_, ?_, ?_, ?_⟩
  · intro x hx
    have hx2 : x ∈ s.graph.operations := hx
    show isOpAt (dataMap (s.nodes ++ [⟨NodeData.Placeholder, Option.none⟩])) x = true
    rw [dataMap_append]
    exact isOpAt_append (dataMap s.nodes) _ x (h1 x hx2)
  · intro x hx
    have hx2 : x ∈ s.graph.placeholders ++ [s.nodes.length] := hx
    show isPhAt (dataMap (s.nodes ++ [⟨NodeData.Placeholder, Option.none⟩])) x = true
    rw [dataMap_append]
    rcases List.mem_append.mp hx2 with hx3 | hx3
    · exact isPhAt_append (dataMap s.nodes) _ x (h2 x hx3)
    · have hx4 : x = s.nodes.length := by simpa using hx3
      subst hx4
      rw [← dataMap_length s.nodes]
      exact isPhAt_new (dataMap s.nodes)
  · intro x hx
    have hx2 : x ∈ s.graph.constants := hx
    show isConstAt (dataMap (s.nodes ++ [⟨NodeData.Placeholder, Option.none⟩])) x = true
    rw [dataMap_append]
    exact isConstAt_append (dataMap s.nodes) _ x (h3 x hx2)
  · intro x hx
    have hx2 : x ∈ s.graph.vars := hx
    show isVarAt (dataMap (s.nodes ++ [⟨NodeData.Placeholder, Option.none⟩])) x = true
    rw [dataMap_append]
    exact isVarAt_append (dataMap s.nodes) _ x (h4 x hx2)
  · exact h5
  · show increasing (s.graph.placeholders ++ [s.nodes.length]) = true
    refine increasing_append s.graph.placeholders s.nodes.length h6 ?_
    intro a ha
    have := isPhAt_lt (dataMap s.nodes) a (h2 a ha)
    rwa [dataMap_length] at this
  · exact h7
  · exact h8

/-- Registering a Operation preserves the bookkeeping invariant. -/
theorem graphInv_operation (s : TFState) (hs : GraphInv s) (k : Kernel) (l : List Nat) :
    GraphInv (Operation.init s k l).2 := by
  unfold GraphInv GraphInvB at hs ⊢
  simp only [Bool.and_eq_true, and_assoc, List.all_eq_true] at hs ⊢
  obtain ⟨h1, h2, h3, h4, h5, h6, h7, h8⟩ := hs
  refine ⟨?_, ?_, ?_, ?_, ?_, ?_, ?_, ?_⟩
  · intro x hx
    have hx2 : x ∈ s.graph.operations ++ [s.nodes.length] := hx
    show isOpAt (dataMap (s.nodes ++ [⟨NodeData.Operation k l, some Value.none⟩])) x = true
    rw [dataMap_append]
    rcases List.mem_append.mp hx2 with hx3 | hx3
    · exact isOpAt_append (dataMap s.nodes) _ x (h1 x hx3)
    · have hx4 : x = s.nodes.length := by simpa using hx3
      subst hx4
      rw [← dataMap_length s.nodes]
      exact isOpAt_new (dataMap s.nodes) k l
  · intro x hx
    have hx2 : x ∈ s.graph.placeholders := hx
    show isPhAt (dataMap (s.nodes ++ [⟨NodeData.Operation k l, some Value.none⟩])) x = true
    rw [dataMap_append]
    exact isPhAt_append (dataMap s.nodes) _ x (h2 x hx2)
  · intro x hx
    have hx2 : x ∈ s.graph.constants := hx
    show isConstAt (dataMap (s.nodes ++ [⟨NodeData.Operation k l, some Value.none⟩])) x = true
    rw [dataMap_append]
    exact isConstAt_append (dataMap s.nodes) _ x (h3 x hx2)
  · intro x hx
    have hx2 : x ∈ s.graph.vars := hx
    show isVarAt (dataMap (s.nodes ++ [⟨NodeData.Operation k l, some Value.none⟩])) x = true
    rw [dataMap_append]
    exact isVarAt_append (dataMap s.nodes) _ x (h4 x hx2)
  · show increasing (s.graph.operations ++ [s.nodes.length]) = true
    refine increasing_append s.graph.operations s.nodes.length h5 ?_
    intro a ha
    have := isOpAt_lt (dataMap s.nodes) a (h1 a ha)
    rwa [dataMap_length] at this
  · exact h6
  · exact h7
  · exact h8

/-- Constant.__init__ appends to the constants collection only. -/
theorem registers_constant_holds (s : TFState) (v : Value) :
    registersConstant s (Constant.init s v) := by
  refine ⟨?_, rfl, rfl, rfl, rfl⟩
  show isConstAt (dataMap (s.nodes ++ [⟨NodeData.Constant v, Option.none⟩])) s.nodes.length = true
  rw [dataMap_append, ← dataMap_length s.nodes]
  exact isConstAt_new (dataMap s.nodes) v

/-- Variable.__init__ appends to the variables collection only. -/
theorem registers_variable_holds (s : TFState) (w : Value) :
    registersVariable s (Variable.init s w) := by
  refine ⟨?_, rfl, rfl, rfl, rfl⟩
  show isVarAt (dataMap (s.nodes ++ [⟨NodeData.Variable w, Option.none⟩])) s.nodes.length = true
  rw [dataMap_append, ← dataMap_length s.nodes]
  exact isVarAt_new (dataMap s.nodes) w

/-- Placeholder.__init__ appends to the placeholders collection only. -/
theorem registers_placeholder_holds (s : TFState) :
    registersPlaceholder s (Placeholder.init s) := by
  refine ⟨?_, rfl, rfl, rfl, rfl⟩
  show isPhAt (dataMap (s.nodes ++ [⟨NodeData.Placeholder, Option.none⟩])) s.nodes.length = true
  rw [dataMap_append, ← dataMap_length s.nodes]
  exact isPhAt_new (dataMap s.nodes)

/-- Operation.__init__ appends to the operations collection only. -/
theorem registers_operation_holds (s : TFState) (k : Kernel) (l : List Nat) :
    registersOperation s (Operation.init s k l) := by
  refine ⟨?_, rfl, rfl, rfl, rfl⟩
  show isOpAt (dataMap (s.nodes ++ [⟨NodeData.Operation k l, some Value.none⟩])) s.nodes.length = true
  rw [dataMap_append, ← dataMap_length s.nodes]
  exact isOpAt_new (dataMap s.nodes) k l

/-- Claim C9: on a graph satisfying the bookkeeping invariant, each of the
four node constructors appends the new node to exactly the collection of its
variant, leaves the other three collections unchanged, preserves the
invariant (variant-correct membership in construction order), and leaves
the four collections pairwise disjoint. -/
theorem constructors_register_disjoint (s : TFState) (hs : GraphInv s)
    (v w : Value) (k : Kernel) (l : List Nat) :
    GraphDisjoint s ∧
    registersConstant s (Constant.init s v) ∧ GraphInv (Constant.init s v).2 ∧
    GraphDisjoint (Constant.init s v).2 ∧
    registersVariable s (Variable.init s w) ∧ GraphInv (Variable.init s w).2 ∧
    GraphDisjoint (Variable.init s w).2 ∧
    registersPlaceholder s (Placeholder.init s) ∧ GraphInv (Placeholder.init s).2 ∧
    GraphDisjoint (Placeholder.init s).2 ∧
    registersOperation s (Operation.init s k l) ∧ GraphInv (Operation.init s k l).2 ∧
    GraphDisjoint (Operation.init s k l).2 :=
  ⟨graphInv_disjoint s hs,
   registers_constant_holds s v, graphInv_constant s hs v,
   graphInv_disjoint _ (graphInv_constant s hs v),
   registers_variable_holds s w, graphInv_variable s hs w,
   graphInv_disjoint _ (graphInv_variable s hs w),
   registers_placeholder_holds s, graphInv_placeholder s hs,
   graphInv_disjoint _ (graphInv_placeholder s hs),
   registers_operation_holds s k l, graphInv_operation s hs k l,
   graphInv_disjoint _ (graphInv_operation s hs k l)⟩

/-- Witness for claim C9 on the concrete scenario store, whose bookkeeping
invariant holds by computation. -/
theorem constructors_register_disjoint_witness :
    GraphDisjoint exS ∧
    registersConstant exS (Constant.init exS (Value.int 5)) ∧
    GraphInv (Constant.init exS (Value.int 5)).2 ∧
    GraphDisjoint (Constant.init exS (Value.int 5)).2 ∧
    registersVariable exS (Variable.init exS (Value.int 6)) ∧
    GraphInv (Variable.init exS (Value.int 6)).2 ∧
    GraphDisjoint (Variable.init exS (Value.int 6)).2 ∧
    registersPlaceholder exS (Placeholder.init exS) ∧
    GraphInv (Placeholder.init exS).2 ∧
    GraphDisjoint (Placeholder.init exS).2 ∧
    registersOperation exS (Operation.init exS Kernel.base []) ∧
    GraphInv (Operation.init exS Kernel.base []).2 ∧
    GraphDisjoint (Operation.init exS Kernel.base []).2 :=
  constructors_register_disjoint exS rfl (Value.int 5) (Value.int 6) Kernel.base []
